import Mathlib

/-!
Verification of the DocQue document question-answering backend.

Text is modelled as `List Char` (`Text`); Python `float` arithmetic on match
scores is modelled exactly over `ℚ`, and the embedding-vector arithmetic
(which involves `math.sqrt`) over `ℝ`.  Python's stable `list.sort` with
`reverse=True` is modelled as sorting the index-annotated list by the strict
total order "score descending, then original index ascending", which is the
defining characterisation of a stable descending sort.  Python `dict`s (which
preserve insertion order and have unique keys) are modelled as association
lists; `del` is modelled as `filter`, which agrees with `del` on the
unique-key states produced by the storage operations.
-/

namespace DocQue

abbrev Text := List Char

def str (s : String) : Text := s.data

/-- The whitespace class used by Python's `str.strip`/`str.split`/`\s`
(ASCII range; the inputs in this development are ASCII). -/
def isPySpace (c : Char) : Bool :=
  c == ' ' || c == '\t' || c == '\n' || c == '\r' || c == '\x0B' || c == '\x0C'

def stripLeft (l : Text) : Text := l.dropWhile isPySpace

def stripRight (l : Text) : Text := (l.reverse.dropWhile isPySpace).reverse

/-- Python `str.strip()`. -/
def strip (l : Text) : Text := stripRight (stripLeft l)

/-! ## Chunker (`services.py`, `DocumentProcessor`)

`chunk_size = 500` and `chunk_overlap = 50` are hardcoded in
`DocumentProcessor.__init__`, so the chunker is embedded at those values;
`self.chunk_size // 2 = 250`. -/

/-- `\w` for the ASCII inputs in scope. -/
def isWordChar (c : Char) : Bool := c.isAlphanum || c == '_'

/-- The punctuation kept by `_clean_text`'s second regex. -/
def allowedPunct (c : Char) : Bool :=
  ['.', ',', '!', '?', ';', ':', '-', '(', ')'].contains c

def keepChar (c : Char) : Bool := isWordChar c || isPySpace c || allowedPunct c

/-- `re.sub(r'\s+', ' ', text)`: each maximal whitespace run becomes one space.
`prevSpace` records whether the previous character was part of a run. -/
def collapseWsGo : Bool → Text → Text
  | _, [] => []
  | prevSpace, c :: rest =>
    if isPySpace c then
      if prevSpace then collapseWsGo true rest else ' ' :: collapseWsGo true rest
    else c :: collapseWsGo false rest

def collapseWs (l : Text) : Text := collapseWsGo false l

/-- `DocumentProcessor._clean_text`. -/
def cleanText (l : Text) : Text :=
  strip ((collapseWs l).map (fun c => if keepChar c then c else ' '))

/-- `text.rfind(ch, s, e)` for a single character: the largest index `i` with
`s ≤ i < e` and `text[i] = ch`, scanning left to right and keeping the last hit. -/
def rfindGo (ch : Char) (s e : Nat) : Text → Nat → Option Nat → Option Nat
  | [], _, best => best
  | d :: rest, i, best =>
    rfindGo ch s e rest (i + 1) (if s ≤ i && i < e && d == ch then some i else best)

def rfind1 (t : Text) (ch : Char) (s e : Nat) : Option Nat := rfindGo ch s e t 0 none

/-- The word-boundary fallback of the chunk-boundary search. -/
def wordCut (t : Text) (start e : Nat) : Nat :=
  match rfind1 t ' ' start e with
  | some j => if start + 250 < j then j else e
  | none => e

/-- The boundary-adjusted end position for the chunk starting at `start`
(the body of the `if end < len(text)` block of `chunk_text`); a Python
`rfind` miss returns `-1`, which never exceeds `start + 250`, hence the
`none` branches fall through to the unadjusted position. -/
def chunkEnd (t : Text) (start : Nat) : Nat :=
  if start + 500 < t.length then
    match rfind1 t '.' start (start + 500) with
    | some i => if start + 250 < i then i + 1 else wordCut t start (start + 500)
    | none => wordCut t start (start + 500)
  else start + 500

/-- Python `text[s:e]` (for `0 ≤ s`). -/
def slice (t : Text) (s e : Nat) : Text := (t.drop s).take (e - s)

/-- The next start position: `start = end - overlap`, then the
`if start >= end: start = end` clamp. -/
def nextStart (e : Nat) : Nat :=
  let s1 := e - 50
  if e ≤ s1 then e else s1

/-- The `while start < len(text)` loop of `chunk_text`, written with a fuel
argument so that it is structurally recursive; `chunkLoop_stable` below shows
the result is fuel-independent once the fuel reaches `length + 1`, so the
fueled function computes the limit of the Python loop. -/
def chunkLoop : Nat → Text → Nat → List Text
  | 0, _, _ => []
  | fuel + 1, t, start =>
    if start < t.length then
      if (strip (slice t start (chunkEnd t start))).isEmpty then
        chunkLoop fuel t (nextStart (chunkEnd t start))
      else
        strip (slice t start (chunkEnd t start)) :: chunkLoop fuel t (nextStart (chunkEnd t start))
    else []

/-- The number of iterations the `while` loop performs. -/
def chunkLoopCount : Nat → Text → Nat → Nat
  | 0, _, _ => 0
  | fuel + 1, t, start =>
    if start < t.length then 1 + chunkLoopCount fuel t (nextStart (chunkEnd t start))
    else 0

/-- `DocumentProcessor.chunk_text`. -/
def chunk_text (t : Text) : List Text :=
  let c := cleanText t
  if c.length ≤ 500 then [c] else chunkLoop (c.length + 1) c 0

/-- Loop-iteration count of `chunk_text` on a given input. -/
def chunkIters (t : Text) : Nat :=
  let c := cleanText t
  if c.length ≤ 500 then 0 else chunkLoopCount (c.length + 1) c 0

/-! ### Chunker lemmas -/

theorem chunkEnd_lb (t : Text) (start : Nat) : start + 251 ≤ chunkEnd t start := by
  unfold chunkEnd wordCut
  repeat' split
  all_goals omega

theorem nextStart_lb (t : Text) (start : Nat) :
    start + 201 ≤ nextStart (chunkEnd t start) := by
  have h := chunkEnd_lb t start
  unfold nextStart
  by_cases hc : chunkEnd t start ≤ chunkEnd t start - 50
  · simp only [hc, if_true]; omega
  · simp only [hc, if_false]; omega

theorem chunkLoopCount_of_ge (fuel : Nat) (t : Text) (start : Nat)
    (h : t.length ≤ start) : chunkLoopCount fuel t start = 0 := by
  cases fuel with
  | zero => rfl
  | succ n => unfold chunkLoopCount; simp [Nat.not_lt.mpr h]

theorem chunkLoop_of_ge (fuel : Nat) (t : Text) (start : Nat)
    (h : t.length ≤ start) : chunkLoop fuel t start = [] := by
  cases fuel with
  | zero => rfl
  | succ n => unfold chunkLoop; simp [Nat.not_lt.mpr h]

theorem chunkLoop_stable (fuel : Nat) : ∀ (g : Nat) (t : Text) (start : Nat),
    t.length ≤ start + 201 * fuel → fuel ≤ g →
    chunkLoop g t start = chunkLoop fuel t start := by
  induction fuel with
  | zero =>
    intro g t start h _
    simp only [Nat.mul_zero, Nat.add_zero] at h
    rw [chunkLoop_of_ge g t start h, chunkLoop_of_ge 0 t start h]
  | succ n ih =>
    intro g t start h hg
    obtain ⟨g', rfl⟩ : ∃ g', g = g' + 1 := ⟨g - 1, by omega⟩
    unfold chunkLoop
    by_cases hs : start < t.length
    · simp only [hs, if_true]
      have hstep := nextStart_lb t start
      rw [ih g' t (nextStart (chunkEnd t start)) (by omega) (by omega)]
    · simp [hs]

theorem chunkLoopCount_stable (fuel : Nat) : ∀ (g : Nat) (t : Text) (start : Nat),
    t.length ≤ start + 201 * fuel → fuel ≤ g →
    chunkLoopCount g t start = chunkLoopCount fuel t start := by
  induction fuel with
  | zero =>
    intro g t start h _
    simp only [Nat.mul_zero, Nat.add_zero] at h
    rw [chunkLoopCount_of_ge g t start h, chunkLoopCount_of_ge 0 t start h]
  | succ n ih =>
    intro g t start h hg
    obtain ⟨g', rfl⟩ : ∃ g', g = g' + 1 := ⟨g - 1, by omega⟩
    unfold chunkLoopCount
    by_cases hs : start < t.length
    · simp only [hs, if_true]
      have hstep := nextStart_lb t start
      rw [ih g' t (nextStart (chunkEnd t start)) (by omega) (by omega)]
    · simp [hs]

theorem chunkLoopCount_bound (fuel : Nat) : ∀ (t : Text) (start : Nat),
    201 * chunkLoopCount fuel t start ≤ (t.length - start) + 200 := by
  induction fuel with
  | zero => intro t start; simp [chunkLoopCount]
  | succ n ih =>
    intro t start
    unfold chunkLoopCount
    by_cases hs : start < t.length
    · simp only [hs, if_true]
      have hstep := nextStart_lb t start
      have := ih t (nextStart (chunkEnd t start))
      omega
    · simp [hs]

/-! ### Strip and clean lemmas -/

theorem dropWhile_head_false {α : Type} {p : α → Bool} :
    ∀ (l : List α) {c : α} {r : List α}, l.dropWhile p = c :: r → p c = false := by
  intro l
  induction l with
  | nil => intro c r h; simp [List.dropWhile] at h
  | cons d rest ih =>
    intro c r h
    rw [List.dropWhile_cons] at h
    by_cases hd : p d = true
    · rw [if_pos hd] at h; exact ih h
    · rw [if_neg hd] at h
      cases h
      simpa using hd

theorem dropWhile_append_singleton {α : Type} {p : α → Bool} {c : α}
    (hc : p c = false) : ∀ (l : List α),
    (l ++ [c]).dropWhile p = l.dropWhile p ++ [c] := by
  intro l
  induction l with
  | nil => simp [List.dropWhile, hc]
  | cons a l ih =>
    rw [List.cons_append, List.dropWhile_cons, List.dropWhile_cons]
    by_cases ha : p a = true
    · rw [if_pos ha, if_pos ha, ih]
    · rw [if_neg ha, if_neg ha, List.cons_append]

theorem stripRight_cons_of_false {c : Char} (hc : isPySpace c = false) (r : Text) :
    stripRight (c :: r) = c :: stripRight r := by
  unfold stripRight
  rw [List.reverse_cons, dropWhile_append_singleton hc, List.reverse_append]
  rfl

theorem strip_head_false {l : Text} (h : strip l ≠ []) :
    ∃ c r, strip l = c :: r ∧ isPySpace c = false := by
  unfold strip at *
  cases hl : stripLeft l with
  | nil => rw [hl] at h; simp [stripRight, List.dropWhile] at h
  | cons c r =>
    have hc : isPySpace c = false := dropWhile_head_false l hl
    rw [stripRight_cons_of_false hc]
    exact ⟨c, stripRight r, rfl, hc⟩

theorem strip_mem_false {l : Text} (h : strip l ≠ []) :
    ∃ c ∈ strip l, isPySpace c = false := by
  obtain ⟨c, r, heq, hc⟩ := strip_head_false h
  exact ⟨c, by rw [heq]; exact List.mem_cons_self c r, hc⟩

theorem length_dropWhile_le' {α : Type} (p : α → Bool) (l : List α) :
    (l.dropWhile p).length ≤ l.length := by
  induction l with
  | nil => simp [List.dropWhile]
  | cons a l ih =>
    rw [List.dropWhile_cons]
    by_cases ha : p a = true
    · rw [if_pos ha]; simp; omega
    · rw [if_neg ha]

theorem strip_length_le (l : Text) : (strip l).length ≤ l.length := by
  unfold strip stripRight stripLeft
  have h1 := length_dropWhile_le' isPySpace l
  have h2 := length_dropWhile_le' isPySpace (l.dropWhile isPySpace).reverse
  simp only [List.length_reverse] at *
  omega

theorem collapseWsGo_length_le : ∀ (b : Bool) (l : Text),
    (collapseWsGo b l).length ≤ l.length := by
  intro b l
  induction l generalizing b with
  | nil => simp [collapseWsGo]
  | cons c rest ih =>
    unfold collapseWsGo
    by_cases hc : isPySpace c = true
    · rw [if_pos hc]
      have h := ih true
      cases b <;> simp only [Bool.false_eq_true, if_false, if_true, List.length_cons] <;> omega
    · rw [if_neg hc]
      simp only [List.length_cons]
      exact Nat.succ_le_succ (ih false)

theorem cleanText_length_le (t : Text) : (cleanText t).length ≤ t.length := by
  unfold cleanText collapseWs
  calc (strip ((collapseWsGo false t).map _)).length
      ≤ ((collapseWsGo false t).map _).length := strip_length_le _
    _ = (collapseWsGo false t).length := by rw [List.length_map]
    _ ≤ t.length := collapseWsGo_length_le false t

theorem chunkLoop_mem : ∀ (fuel : Nat) (t : Text) (start : Nat),
    ∀ c ∈ chunkLoop fuel t start, (∃ m, c = strip m) ∧ c ≠ [] := by
  intro fuel
  induction fuel with
  | zero => intro t start c hc; simp [chunkLoop] at hc
  | succ n ih =>
    intro t start c hc
    unfold chunkLoop at hc
    by_cases hs : start < t.length
    · rw [if_pos hs] at hc
      by_cases he : (strip (slice t start (chunkEnd t start))).isEmpty
      · rw [if_pos he] at hc
        exact ih t _ c hc
      · rw [if_neg he] at hc
        rcases List.mem_cons.mp hc with h | h
        · subst h
          refine ⟨⟨slice t start (chunkEnd t start), rfl⟩, ?_⟩
          intro hnil
          exact he (by rw [hnil]; rfl)
        · exact ih t _ c h
    · rw [if_neg hs] at hc; simp at hc

theorem take_cons_of_pos {α : Type} {l : List α} {c : α} {r : List α} (n : Nat)
    (h : l = c :: r) (hn : 0 < n) : ∃ r', l.take n = c :: r' := by
  subst h
  cases n with
  | zero => omega
  | succ m => exact ⟨r.take m, rfl⟩

theorem strip_cons_of_false {c : Char} (hc : isPySpace c = false) (r : Text) :
    ∃ r', strip (c :: r) = c :: r' := by
  unfold strip stripLeft
  rw [List.dropWhile_cons, if_neg (by simp [hc])]
  exact ⟨stripRight r, stripRight_cons_of_false hc r⟩

theorem chunkLoop_ne_nil (fuel : Nat) (t : Text) (hf : 0 < fuel)
    (hlen : 0 < t.length) (hhead : ∃ c r, t = c :: r ∧ isPySpace c = false) :
    chunkLoop fuel t 0 ≠ [] := by
  obtain ⟨fuel', rfl⟩ : ∃ f, fuel = f + 1 := ⟨fuel - 1, by omega⟩
  obtain ⟨c, r, ht, hc⟩ := hhead
  unfold chunkLoop
  rw [if_pos hlen]
  have he : 0 < chunkEnd t 0 := by have := chunkEnd_lb t 0; omega
  have hsl : slice t 0 (chunkEnd t 0) = t.take (chunkEnd t 0) := by
    simp [slice]
  obtain ⟨r', hr'⟩ := take_cons_of_pos (chunkEnd t 0) ht he
  obtain ⟨r'', hr''⟩ := strip_cons_of_false hc r'
  rw [hsl, hr', hr'']
  simp

/-- C6 (amended): for every input text, whenever cleaning does not erase the
whole text, `chunk_text` emits only nonempty chunks each containing a
non-whitespace character; when cleaning erases everything (as for inputs made
only of stripped characters and whitespace) the result is the singleton list
containing the empty chunk; and for every input — in particular every
non-empty one — the returned sequence of chunks is never empty. -/
theorem chunk_text_spec (t : Text) :
    (cleanText t ≠ [] → ∀ c ∈ chunk_text t, c ≠ [] ∧ ∃ ch ∈ c, isPySpace ch = false)
    ∧ (cleanText t = [] → chunk_text t = [[]])
    ∧ chunk_text t ≠ [] := by
  refine ⟨?_, ?_, ?_⟩
  · intro hne c hc
    unfold chunk_text at hc
    by_cases hlen : (cleanText t).length ≤ 500
    · rw [if_pos hlen] at hc
      have hceq : c = cleanText t := by simpa using hc
      rw [hceq]
      exact ⟨hne, strip_mem_false hne⟩
    · rw [if_neg hlen] at hc
      obtain ⟨⟨m, hm⟩, hnil⟩ := chunkLoop_mem _ _ _ c hc
      refine ⟨hnil, ?_⟩
      rw [hm]
      exact strip_mem_false (by rw [← hm]; exact hnil)
  · intro hnil
    unfold chunk_text
    rw [hnil]
    simp
  · unfold chunk_text
    by_cases hlen : (cleanText t).length ≤ 500
    · rw [if_pos hlen]; simp
    · rw [if_neg hlen]
      have hne : cleanText t ≠ [] := by
        intro h; rw [h] at hlen; simp at hlen
      have hhead : ∃ c r, cleanText t = c :: r ∧ isPySpace c = false := by
        have := strip_head_false (l := (collapseWs t).map (fun ch => if keepChar ch then ch else ' '))
        exact this hne
      exact chunkLoop_ne_nil _ _ (by omega) (by omega) hhead

/-- Witness for C6: the theorem applied to the concrete input "ab". -/
theorem chunk_text_spec_witness :
    (['a', 'b'] : Text) ≠ [] ∧ ∃ ch ∈ (['a', 'b'] : Text), isPySpace ch = false :=
  (chunk_text_spec (str "ab")).1 (by decide) ['a', 'b'] (by decide)

/-- Counterexample to C6 as stated: on the non-empty input "@" (whose cleaning
yields the empty string) `chunk_text` emits an empty chunk. -/
theorem chunk_text_empty_chunk_cex : ([] : Text) ∈ chunk_text (str "@") := by decide

/-- C7 (amended): the chunking loop terminates — once the fuel reaches
`length + 1` both the chunk list and the iteration count are independent of
the fuel, so the fueled functions compute the limit of the Python `while`
loop — and the number of iterations is at most
`ceil(len(text) / (chunk_size/2 - overlap + 1)) + 1 = ceil(len(text)/201) + 1`
for the fixed parameters `chunk_size = 500`, `overlap = 50`. -/
theorem chunk_loop_terminates_bound (t : Text) :
    (∀ g, (cleanText t).length + 1 ≤ g →
      chunkLoop g (cleanText t) 0 = chunkLoop ((cleanText t).length + 1) (cleanText t) 0 ∧
      chunkLoopCount g (cleanText t) 0 = chunkLoopCount ((cleanText t).length + 1) (cleanText t) 0)
    ∧ chunkIters t ≤ (t.length + 200) / 201 + 1 := by
  constructor
  · intro g hg
    constructor
    · exact chunkLoop_stable ((cleanText t).length + 1) g (cleanText t) 0 (by omega) hg
    · exact chunkLoopCount_stable ((cleanText t).length + 1) g (cleanText t) 0 (by omega) hg
  · unfold chunkIters
    by_cases h : (cleanText t).length ≤ 500
    · rw [if_pos h]; omega
    · rw [if_neg h]
      have hb := chunkLoopCount_bound ((cleanText t).length + 1) (cleanText t) 0
      have hc := cleanText_length_le t
      omega

/-- Witness for C7: the theorem applied to the concrete input "a" with fuel 3. -/
theorem chunk_loop_terminates_bound_witness :
    (chunkLoop 3 (cleanText (str "a")) 0 =
        chunkLoop ((cleanText (str "a")).length + 1) (cleanText (str "a")) 0 ∧
      chunkLoopCount 3 (cleanText (str "a")) 0 =
        chunkLoopCount ((cleanText (str "a")).length + 1) (cleanText (str "a")) 0)
    ∧ chunkIters (str "a") ≤ ((str "a").length + 200) / 201 + 1 :=
  ⟨(chunk_loop_terminates_bound (str "a")).1 3 (by decide),
    (chunk_loop_terminates_bound (str "a")).2⟩

/-- A 1103-character text (words of lengths 251, 248, 200, 248 and 152
separated by single spaces, so that the word-boundary cut repeatedly fires
just past the chunk midpoint) on which the chunking loop runs for 5
iterations. -/
def slowText : Text :=
  List.replicate 251 'a' ++ ' ' :: List.replicate 248 'a' ++ ' ' :: List.replicate 200 'a'
    ++ ' ' :: List.replicate 248 'a' ++ ' ' :: List.replicate 152 'a'

set_option maxRecDepth 40000 in
/-- Counterexample to C7 as stated: on `slowText` the loop runs 5 iterations,
exceeding the claimed bound `ceil(1103/450) + 1 = 4`. -/
theorem chunk_iters_bound_cex :
    ¬ (chunkIters slowText ≤ (slowText.length + 449) / 450 + 1) := by decide

/-! ## Data model (`models.py`) -/

/-- `models.Document` (the `upload_date` timestamp is opaque to all operations
and is modelled as a number). -/
structure Document where
  id : Text
  filename : Text
  content : Text
  chunks : List Text
  upload_date : Nat
deriving DecidableEq

/-- `models.DocumentChunk`; embeddings are vectors of Python floats, modelled
over `ℝ`. -/
structure DocumentChunk where
  document_id : Text
  chunk_index : Nat
  content : Text
  embedding : Option (List ℝ)

/-! ## Storage (`storage.py`, `DocumentStorage`)

Python `dict`s preserve insertion order and have unique keys; they are
modelled as association lists.  `del d[k]` is modelled as filtering out the
key, which agrees with `del` on unique-key states. -/

structure DocumentStorage where
  documents : List (Text × Document)
  chunks : List (Text × List DocumentChunk)

/-- `d.get(k)` on an insertion-ordered dict. -/
def lookup {V : Type} (m : List (Text × V)) (k : Text) : Option V :=
  (m.find? (fun p => p.1 == k)).map (fun p => p.2)

/-- `d[k] = v`: replace in place if the key exists, else append. -/
def setKey {V : Type} (m : List (Text × V)) (k : Text) (v : V) : List (Text × V) :=
  if (m.find? (fun p => p.1 == k)).isSome then
    m.map (fun p => if p.1 == k then (p.1, v) else p)
  else m ++ [(k, v)]

/-- `DocumentStorage.get_document`. -/
def get_document (s : DocumentStorage) (docId : Text) : Option Document :=
  lookup s.documents docId

/-- `DocumentStorage.get_all_documents`: `list(self.documents.values())`. -/
def get_all_documents (s : DocumentStorage) : List Document :=
  s.documents.map (fun p => p.2)

/-- `DocumentStorage.get_all_chunks`: concatenation of `self.chunks.values()`. -/
def get_all_chunks (s : DocumentStorage) : List DocumentChunk :=
  s.chunks.flatMap (fun p => p.2)

/-- `DocumentStorage.delete_document`: returns the Python boolean result
together with the post-state.  The source's inner `if doc_id in self.chunks`
guard is subsumed by the filter, which also removes nothing when the key is
absent. -/
def delete_document (s : DocumentStorage) (docId : Text) : Bool × DocumentStorage :=
  if (lookup s.documents docId).isSome then
    (true, ⟨s.documents.filter (fun p => !(p.1 == docId)),
            s.chunks.filter (fun p => !(p.1 == docId))⟩)
  else (false, s)

/-- `DocumentStorage.store_chunks`: when the document exists, replace its
chunk list and rewrite the document's `chunks` field with the chunk contents;
otherwise do nothing. -/
def store_chunks (s : DocumentStorage) (docId : Text) (cs : List DocumentChunk) :
    DocumentStorage :=
  if (lookup s.documents docId).isSome then
    { documents := s.documents.map (fun p =>
        if p.1 == docId then (p.1, { p.2 with chunks := cs.map (fun c => c.content) }) else p),
      chunks := setKey s.chunks docId cs }
  else s

/-! ### Storage lemmas and claims C9, C10 -/

theorem lookup_filter_self {V : Type} (m : List (Text × V)) (k : Text) :
    lookup (m.filter (fun p => !(p.1 == k))) k = none := by
  unfold lookup
  have h : List.find? (fun p => p.1 == k) (m.filter (fun p => !(p.1 == k))) = none := by
    rw [List.find?_eq_none]
    intro x hx
    rcases List.mem_filter.mp hx with ⟨_, hbx⟩
    simpa using hbx
  rw [h]
  rfl

theorem lookup_filter_other {V : Type} (m : List (Text × V)) (removed target : Text)
    (hk : target ≠ removed) :
    lookup (m.filter (fun p => !(p.1 == removed))) target = lookup m target := by
  induction m with
  | nil => rfl
  | cons p rest ih =>
    rw [List.filter_cons]
    by_cases hp : p.1 = removed
    · rw [if_neg (by simp [hp])]
      unfold lookup at *
      rw [List.find?_cons_of_neg _ (by simp [hp]; intro h; exact hk h.symm)]
      exact ih
    · rw [if_pos (by simp [hp])]
      unfold lookup at *
      by_cases hd : p.1 = target
      · rw [List.find?_cons_of_pos _ (by simp [hd]), List.find?_cons_of_pos _ (by simp [hd])]
      · rw [List.find?_cons_of_neg _ (by simp [hd]), List.find?_cons_of_neg _ (by simp [hd])]
        exact ih

/-- C9: `delete_document` returns `True` and removes the document and all of
its chunks from both maps (leaving every other key untouched) when the id is
present, and returns `False` leaving the state entirely unchanged when it is
absent. -/
theorem delete_document_spec (s : DocumentStorage) (docId : Text) :
    ((lookup s.documents docId).isSome →
      (delete_document s docId).1 = true
      ∧ lookup (delete_document s docId).2.documents docId = none
      ∧ lookup (delete_document s docId).2.chunks docId = none
      ∧ ∀ k, k ≠ docId →
          lookup (delete_document s docId).2.documents k = lookup s.documents k
          ∧ lookup (delete_document s docId).2.chunks k = lookup s.chunks k)
    ∧ ((lookup s.documents docId) = none →
      (delete_document s docId).1 = false ∧ (delete_document s docId).2 = s) := by
  constructor
  · intro h
    unfold delete_document
    rw [if_pos h]
    refine ⟨rfl, lookup_filter_self _ _, lookup_filter_self _ _, ?_⟩
    intro k hk
    exact ⟨lookup_filter_other _ _ _ hk, lookup_filter_other _ _ _ hk⟩
  · intro h
    unfold delete_document
    rw [if_neg (by rw [h]; simp)]
    exact ⟨rfl, rfl⟩

/-- A one-document storage used to witness C9. -/
def demoDoc : Document :=
  { id := str "d1", filename := str "f.txt", content := str "hello", chunks := [], upload_date := 0 }

def demoStorage : DocumentStorage :=
  { documents := [(str "d1", demoDoc)], chunks := [(str "d1", [])] }

/-- Witness for C9: deleting the present id `d1` succeeds and clears both maps,
and deleting the absent id `zz` fails and leaves the state unchanged. -/
theorem delete_document_spec_witness :
    ((delete_document demoStorage (str "d1")).1 = true
      ∧ lookup (delete_document demoStorage (str "d1")).2.documents (str "d1") = none
      ∧ lookup (delete_document demoStorage (str "d1")).2.chunks (str "d1") = none
      ∧ ∀ k, k ≠ str "d1" →
          lookup (delete_document demoStorage (str "d1")).2.documents k =
            lookup demoStorage.documents k
          ∧ lookup (delete_document demoStorage (str "d1")).2.chunks k =
            lookup demoStorage.chunks k)
    ∧ ((delete_document demoStorage (str "zz")).1 = false
      ∧ (delete_document demoStorage (str "zz")).2 = demoStorage) :=
  ⟨(delete_document_spec demoStorage (str "d1")).1 (by decide),
   (delete_document_spec demoStorage (str "zz")).2 (by decide)⟩

/-- C10: for a document id that is not stored, `store_chunks` is a silent
no-op — the returned state (both the documents map and the chunks map) is the
input state, and no error is reported. -/
theorem store_chunks_noop (s : DocumentStorage) (docId : Text) (cs : List DocumentChunk)
    (h : lookup s.documents docId = none) : store_chunks s docId cs = s := by
  unfold store_chunks
  rw [if_neg (by rw [h]; simp)]

/-- Witness for C10: storing chunks under an id absent from an empty store
changes nothing. -/
theorem store_chunks_noop_witness :
    store_chunks ⟨[], []⟩ (str "nope") [] = (⟨[], []⟩ : DocumentStorage) :=
  store_chunks_noop ⟨[], []⟩ (str "nope") [] (by decide)

/-! ## Cosine similarity and vector search (`storage.py`) -/

/-- `sum(a * b for a, b in zip(vec1, vec2))`. -/
def dotList (v1 v2 : List ℝ) : ℝ := ((v1.zip v2).map (fun p => p.1 * p.2)).sum

/-- `sum(a * a for a in v)` (the squared magnitude). -/
def sumSq (v : List ℝ) : ℝ := (v.map (fun a => a * a)).sum

/-- `DocumentStorage._cosine_similarity`: `dot / (|v1| * |v2|)`, defined as
`0` when either magnitude is zero. -/
noncomputable def cosine_similarity (v1 v2 : List ℝ) : ℝ :=
  if Real.sqrt (sumSq v1) = 0 ∨ Real.sqrt (sumSq v2) = 0 then 0
  else dotList v1 v2 / (Real.sqrt (sumSq v1) * Real.sqrt (sumSq v2))

theorem dotList_comm (a b : List ℝ) : dotList a b = dotList b a := by
  induction a generalizing b with
  | nil => cases b <;> rfl
  | cons x xs ih =>
    cases b with
    | nil => rfl
    | cons y ys =>
      unfold dotList at *
      simp only [List.zip_cons_cons, List.map_cons, List.sum_cons]
      rw [mul_comm x y, ih ys]

theorem dotList_self (a : List ℝ) : dotList a a = sumSq a := by
  induction a with
  | nil => rfl
  | cons x xs ih =>
    unfold dotList sumSq at *
    simp only [List.zip_cons_cons, List.map_cons, List.sum_cons]
    rw [ih]

theorem sumSq_nonneg (a : List ℝ) : 0 ≤ sumSq a := by
  induction a with
  | nil => simp [sumSq]
  | cons x xs ih =>
    unfold sumSq at *
    simp only [List.map_cons, List.sum_cons]
    have := mul_self_nonneg x
    linarith

theorem sumSq_pos (a : List ℝ) (h : ∃ x ∈ a, x ≠ 0) : 0 < sumSq a := by
  induction a with
  | nil => simp at h
  | cons y ys ih =>
    unfold sumSq at *
    simp only [List.map_cons, List.sum_cons]
    obtain ⟨x, hx, hx0⟩ := h
    have h2 : 0 ≤ (ys.map (fun a => a * a)).sum := by
      have := sumSq_nonneg ys
      unfold sumSq at this
      exact this
    rcases List.mem_cons.mp hx with heq | hmem
    · subst heq
      have h1 : 0 < x * x := mul_self_pos.mpr hx0
      linarith
    · have h3 := ih ⟨x, hmem, hx0⟩
      have h1 : 0 ≤ y * y := mul_self_nonneg y
      linarith

/-- C5: cosine similarity is symmetric for equal-length vectors,
`sim(a,a) = 1` for every nonzero vector `a`, and `sim` is `0` whenever either
argument has zero magnitude. -/
theorem cosine_similarity_spec :
    (∀ a b : List ℝ, a.length = b.length → cosine_similarity a b = cosine_similarity b a)
    ∧ (∀ a : List ℝ, (∃ x ∈ a, x ≠ 0) → cosine_similarity a a = 1)
    ∧ (∀ z x : List ℝ, Real.sqrt (sumSq z) = 0 →
        cosine_similarity z x = 0 ∧ cosine_similarity x z = 0) := by
  refine ⟨?_, ?_, ?_⟩
  · intro a b _
    unfold cosine_similarity
    rw [dotList_comm, mul_comm (Real.sqrt (sumSq a)) (Real.sqrt (sumSq b))]
    exact if_congr or_comm rfl rfl
  · intro a ha
    unfold cosine_similarity
    have hpos : 0 < sumSq a := sumSq_pos a ha
    have hs : Real.sqrt (sumSq a) ≠ 0 := by
      have := Real.sqrt_pos.mpr hpos
      exact ne_of_gt this
    rw [if_neg (by tauto)]
    rw [dotList_self, Real.mul_self_sqrt (le_of_lt hpos)]
    exact div_self (ne_of_gt hpos)
  · intro z x hz
    constructor
    · unfold cosine_similarity
      rw [if_pos (Or.inl hz)]
    · unfold cosine_similarity
      rw [if_pos (Or.inr hz)]

/-- Witness for C5: the theorem applied to the concrete vectors `[1]`, `[2]`,
`[0]` and `[5]`. -/
theorem cosine_similarity_spec_witness :
    cosine_similarity [1] [2] = cosine_similarity [2] [1]
    ∧ cosine_similarity [1] [1] = 1
    ∧ cosine_similarity [0] [5] = 0 ∧ cosine_similarity [5] [0] = 0 :=
  ⟨cosine_similarity_spec.1 [1] [2] rfl,
   cosine_similarity_spec.2.1 [1] ⟨1, by simp, one_ne_zero⟩,
   cosine_similarity_spec.2.2 [0] [5] (by simp [sumSq])⟩

/-! ## Stable descending sort

`list.sort(key=lambda x: key(x), reverse=True)` is a stable descending sort.
Its result is characterised uniquely as the permutation of the input sorted by
the strict total order "key descending, then original position ascending";
`stableSortDesc` computes exactly that by sorting the index-annotated list. -/

section StableSort

variable {α : Type} {K : Type} [LinearOrder K]

/-- "key descending, then original index ascending" on index-annotated items. -/
def lexLe (key : α → K) (a b : Nat × α) : Bool :=
  decide (key b.2 < key a.2 ∨ (key a.2 = key b.2 ∧ a.1 ≤ b.1))

/-- Insert into a sorted list, before the first element it is `le`-below. -/
def insertLe {β : Type} (le : β → β → Bool) (x : β) : List β → List β
  | [] => [x]
  | y :: ys => if le x y then x :: y :: ys else y :: insertLe le x ys

def insSort {β : Type} (le : β → β → Bool) : List β → List β
  | [] => []
  | x :: xs => insertLe le x (insSort le xs)

def sortedEnum (key : α → K) (l : List α) : List (Nat × α) := insSort (lexLe key) l.enum

def stableSortDesc (key : α → K) (l : List α) : List α :=
  (sortedEnum key l).map Prod.snd

theorem insertLe_perm {β : Type} (le : β → β → Bool) (x : β) :
    ∀ l : List β, (insertLe le x l).Perm (x :: l) := by
  intro l
  induction l with
  | nil => exact List.Perm.refl _
  | cons y ys ih =>
    unfold insertLe
    by_cases h : le x y = true
    · rw [if_pos h]
    · rw [if_neg h]
      exact (ih.cons y).trans (List.Perm.swap x y ys)

theorem insSort_perm {β : Type} (le : β → β → Bool) :
    ∀ l : List β, (insSort le l).Perm l := by
  intro l
  induction l with
  | nil => exact List.Perm.refl _
  | cons x xs ih =>
    unfold insSort
    exact (insertLe_perm le x (insSort le xs)).trans (List.Perm.cons x ih)

theorem pairwise_insertLe {β : Type} (le : β → β → Bool)
    (htot : ∀ a b, le a b = false → le b a = true)
    (htrans : ∀ a b c, le a b = true → le b c = true → le a c = true) (x : β) :
    ∀ l : List β, l.Pairwise (fun a b => le a b = true) →
      (insertLe le x l).Pairwise (fun a b => le a b = true) := by
  intro l
  induction l with
  | nil => intro _; exact List.pairwise_singleton _ x
  | cons y ys ih =>
    intro hp
    rcases List.pairwise_cons.mp hp with ⟨hy, hys⟩
    unfold insertLe
    by_cases h : le x y = true
    · rw [if_pos h]
      refine List.pairwise_cons.mpr ⟨?_, hp⟩
      intro z hz
      rcases List.mem_cons.mp hz with heq | hz'
      · rw [heq]; exact h
      · exact htrans x y z h (hy z hz')
    · rw [if_neg h]
      refine List.pairwise_cons.mpr ⟨?_, ih hys⟩
      intro z hz
      have hz' := (insertLe_perm le x ys).mem_iff.mp hz
      rcases List.mem_cons.mp hz' with heq | hz''
      · rw [heq]; exact htot x y (by simpa using h)
      · exact hy z hz''

theorem insSort_pairwise {β : Type} (le : β → β → Bool)
    (htot : ∀ a b, le a b = false → le b a = true)
    (htrans : ∀ a b c, le a b = true → le b c = true → le a c = true) :
    ∀ l : List β, (insSort le l).Pairwise (fun a b => le a b = true) := by
  intro l
  induction l with
  | nil => exact List.Pairwise.nil
  | cons x xs ih => exact pairwise_insertLe le htot htrans x _ ih

theorem lexLe_total (key : α → K) :
    ∀ a b, lexLe key a b = false → lexLe key b a = true := by
  intro a b h
  unfold lexLe at *
  rw [decide_eq_false_iff_not] at h
  rw [decide_eq_true_eq]
  push_neg at h
  rcases lt_trichotomy (key a.2) (key b.2) with hlt | heq | hgt
  · exact Or.inl hlt
  · exact Or.inr ⟨heq.symm, by have := h.2 heq; omega⟩
  · exact absurd hgt (not_lt.mpr h.1)

theorem lexLe_trans (key : α → K) :
    ∀ a b c, lexLe key a b = true → lexLe key b c = true → lexLe key a c = true := by
  intro a b c hab hbc
  unfold lexLe at *
  rw [decide_eq_true_eq] at hab hbc ⊢
  rcases hab with h1 | ⟨h1, h1'⟩ <;> rcases hbc with h2 | ⟨h2, h2'⟩
  · exact Or.inl (h2.trans h1)
  · exact Or.inl (lt_of_le_of_lt (le_of_eq h2.symm) h1)
  · exact Or.inl (lt_of_lt_of_le h2 (le_of_eq h1.symm))
  · exact Or.inr ⟨h1.trans h2, h1'.trans h2'⟩

theorem sortedEnum_perm (key : α → K) (l : List α) : (sortedEnum key l).Perm l.enum :=
  insSort_perm _ _

theorem sortedEnum_pairwise (key : α → K) (l : List α) :
    (sortedEnum key l).Pairwise (fun a b => lexLe key a b = true) :=
  insSort_pairwise _ (lexLe_total key) (lexLe_trans key) _

theorem stableSortDesc_perm (key : α → K) (l : List α) :
    (stableSortDesc key l).Perm l := by
  have h := (sortedEnum_perm key l).map Prod.snd
  rw [List.enum_map_snd] at h
  exact h

theorem stableSortDesc_pairwise (key : α → K) (l : List α) :
    (stableSortDesc key l).Pairwise (fun a b => key b ≤ key a) := by
  unfold stableSortDesc
  rw [List.pairwise_map]
  refine (sortedEnum_pairwise key l).imp ?_
  intro a b hab
  rw [lexLe, decide_eq_true_eq] at hab
  rcases hab with h | ⟨h, _⟩
  · exact le_of_lt h
  · exact le_of_eq h.symm

end StableSort

/-! ### Vector search (`DocumentStorage.search_chunks_by_similarity`) -/

/-- `DocumentStorage.search_chunks_by_similarity`: keep the chunks that carry
an embedding, score each by cosine similarity to the query embedding, sort by
similarity descending (`list.sort(key=..., reverse=True)`, a stable sort) and
return the first `max_results` chunks.  The `getD []` unwraps the embedding,
which the filter guarantees is present. -/
noncomputable def search_chunks_by_similarity (s : DocumentStorage)
    (queryEmbedding : List ℝ) (maxResults : Nat) : List DocumentChunk :=
  if ((get_all_chunks s).filter (fun c => c.embedding.isSome)).isEmpty then []
  else
    ((stableSortDesc (fun p => p.2)
        (((get_all_chunks s).filter (fun c => c.embedding.isSome)).map
          (fun c => (c, cosine_similarity queryEmbedding (c.embedding.getD []))))).take
      maxResults).map Prod.fst

/-- C2: vector search returns at most `max_results` chunks, every returned
chunk carries an embedding, the returned chunks are ordered by descending
cosine similarity to the query vector, and the result is empty when no chunk
in the index carries an embedding. -/
theorem search_chunks_by_similarity_spec (s : DocumentStorage) (q : List ℝ) (m : Nat) :
    (search_chunks_by_similarity s q m).length ≤ m
    ∧ (∀ c ∈ search_chunks_by_similarity s q m, c.embedding.isSome)
    ∧ (search_chunks_by_similarity s q m).Pairwise
        (fun c1 c2 => cosine_similarity q (c2.embedding.getD [])
          ≤ cosine_similarity q (c1.embedding.getD []))
    ∧ ((∀ c ∈ get_all_chunks s, c.embedding = none) →
        search_chunks_by_similarity s q m = []) := by
  refine ⟨?_, ?_, ?_, ?_⟩
  · unfold search_chunks_by_similarity
    split
    · simp
    · rw [List.length_map]
      have := List.length_take m (stableSortDesc (fun p => p.2)
        (((get_all_chunks s).filter (fun c => c.embedding.isSome)).map
          (fun c => (c, cosine_similarity q (c.embedding.getD [])))))
      omega
  · intro c hc
    unfold search_chunks_by_similarity at hc
    split at hc
    · simp at hc
    · rcases List.mem_map.mp hc with ⟨p, hp, rfl⟩
      have hp1 := List.mem_of_mem_take hp
      have hp2 := (stableSortDesc_perm _ _).mem_iff.mp hp1
      rcases List.mem_map.mp hp2 with ⟨c', hc', rfl⟩
      exact (List.mem_filter.mp hc').2
  · unfold search_chunks_by_similarity
    split
    · exact List.Pairwise.nil
    · rw [List.pairwise_map]
      have hpw := stableSortDesc_pairwise (fun p : DocumentChunk × ℝ => p.2)
        (((get_all_chunks s).filter (fun c => c.embedding.isSome)).map
          (fun c => (c, cosine_similarity q (c.embedding.getD []))))
      have hpw2 := hpw.sublist (List.take_sublist m _)
      refine hpw2.imp_of_mem ?_
      intro a b ha hb hab
      have ha2 := (stableSortDesc_perm _ _).mem_iff.mp (List.mem_of_mem_take ha)
      have hb2 := (stableSortDesc_perm _ _).mem_iff.mp (List.mem_of_mem_take hb)
      rcases List.mem_map.mp ha2 with ⟨ca, _, rfl⟩
      rcases List.mem_map.mp hb2 with ⟨cb, _, rfl⟩
      exact hab
  · intro h
    unfold search_chunks_by_similarity
    rw [if_pos ?_]
    rw [List.isEmpty_iff, List.filter_eq_nil_iff]
    intro c hc
    rw [h c hc]
    simp

/-- A storage whose single chunk has no embedding, used to witness C2. -/
def noEmbChunk : DocumentChunk :=
  { document_id := str "d1", chunk_index := 0, content := str "c", embedding := none }

def noEmbStorage : DocumentStorage :=
  { documents := [], chunks := [(str "d1", [noEmbChunk])] }

/-- Witness for C2: on a store with one embeddingless chunk the search returns
the empty list (and trivially at most 5 results). -/
theorem search_chunks_by_similarity_spec_witness :
    (search_chunks_by_similarity noEmbStorage [] 5).length ≤ 5
    ∧ search_chunks_by_similarity noEmbStorage [] 5 = [] :=
  ⟨(search_chunks_by_similarity_spec noEmbStorage [] 5).1,
   (search_chunks_by_similarity_spec noEmbStorage [] 5).2.2.2 (by
      intro c hc
      simp [get_all_chunks, noEmbStorage] at hc
      rw [hc]
      rfl)⟩

/-! ## Lexical matcher and query pipeline (`routes.py`, `query_documents`)

Strings are ASCII in scope; `str.lower()` is `Char.toLower` mapped over the
characters.  The external completion provider (`requests.post` to the LLM API
inside `LLMService.synthesize_answer`) is modelled as a function
`llm : Text → Except Text Text` from the prompt to either the returned
message content or the raised exception's text. -/

def lower (t : Text) : Text := t.map Char.toLower

/-- `leadsWith sub t`: `t` starts with `sub`. -/
def leadsWith : Text → Text → Bool
  | [], _ => true
  | _ :: _, [] => false
  | c :: cs, d :: ds => c == d && leadsWith cs ds

/-- Python's `sub in t` substring test. -/
def isSubstring (sub : Text) : Text → Bool
  | [] => sub.isEmpty
  | c :: rest => leadsWith sub (c :: rest) || isSubstring sub rest

/-- Python `str.split()` with no argument: split on whitespace runs, dropping
empty tokens; `cur` accumulates the current token reversed. -/
def splitWsGo : Text → Text → List Text
  | cur, [] => if cur.isEmpty then [] else [cur.reverse]
  | cur, c :: rest =>
    if isPySpace c then
      if cur.isEmpty then splitWsGo [] rest else cur.reverse :: splitWsGo [] rest
    else splitWsGo (c :: cur) rest

def splitWs (t : Text) : List Text := splitWsGo [] t

/-- Python `t.count(sub)`: non-overlapping occurrences scanning left to right.
The fuel equals the remaining text length, which every recursive call
decreases at least as fast as the text, so the fueled scan is exact. -/
def countOccsGo (sub : Text) : Nat → Text → Nat
  | 0, _ => 0
  | _ + 1, [] => 0
  | fuel + 1, c :: rest =>
    if leadsWith sub (c :: rest) then 1 + countOccsGo sub fuel ((c :: rest).drop sub.length)
    else countOccsGo sub fuel rest

def countOccs (sub t : Text) : Nat :=
  if sub.isEmpty then t.length + 1 else countOccsGo sub t.length t

def natText (n : Nat) : Text := (Nat.repr n).data

/-- The `semantic_expansions` table. -/
def semanticExpansions : List (Text × List Text) :=
  [(str "name", [str "name", str "called", str "named", str "title"]),
   (str "what", [str "what", str "who", str "which"]),
   (str "where", [str "where", str "location", str "place", str "address"]),
   (str "when", [str "when", str "date", str "time"]),
   (str "how", [str "how", str "method", str "way"]),
   (str "email", [str "email", str "mail", str "contact"]),
   (str "phone", [str "phone", str "number", str "contact", str "mobile"]),
   (str "work", [str "work", str "job", str "company", str "employer"]),
   (str "education",
    [str "education", str "school", str "university", str "degree", str "study"])]

def questionIndicators : List Text :=
  [str "what", str "who", str "where", str "when", str "how", str "tell", str "describe"]

/-- `[word.strip() for word in query_lower.split() if len(word.strip()) > 2]`. -/
def baseQueryWords (query : Text) : List Text :=
  (splitWs (lower query)).filterMap
    (fun w => if 2 < (strip w).length then some (strip w) else none)

def dedupTextsGo : List Text → List Text → List Text
  | [], _ => []
  | w :: rest, seen =>
    if seen.contains w then dedupTextsGo rest seen else w :: dedupTextsGo rest (w :: seen)

def dedupTexts (l : List Text) : List Text := dedupTextsGo l []

/-- The `expanded_words` set as a duplicate-free list: the query words plus
every expansion row containing some query word.  (Python materialises this
set in arbitrary iteration order; every use downstream — membership counting,
cardinality, and the single-element case — is order-independent.) -/
def expandedQueryWords (query : Text) : List Text :=
  dedupTexts (baseQueryWords query ++
    (semanticExpansions.filter
      (fun kv => kv.2.any (fun e => (baseQueryWords query).contains e))).flatMap
      (fun kv => kv.2))

def isQuestion (query : Text) : Bool :=
  questionIndicators.any (fun ind => isSubstring ind (lower query))

def matchedWordCount (qws : List Text) (contentLower : Text) : Nat :=
  qws.countP (fun w => isSubstring w contentLower)

def wordOccTotal (qws : List Text) (contentLower : Text) : Nat :=
  ((qws.filter (fun w => isSubstring w contentLower)).map
    (fun w => countOccs w contentLower)).sum

/-- `(matched_words / len(query_words)) * 0.7 + min(word_score / 10, 0.3)`. -/
def wordScore (qws : List Text) (contentLower : Text) : ℚ :=
  ((matchedWordCount qws contentLower : ℚ) / (qws.length : ℚ)) * (7 / 10)
    + min ((wordOccTotal qws contentLower : ℚ) / 10) (3 / 10)

/-- Strategy 1: exact phrase matches, score `1.0`. -/
def exactMatches (docs : List Document) (query : Text) : List (Document × ℚ) :=
  docs.filterMap (fun d =>
    if isSubstring (lower query) (lower d.content) then some (d, 1) else none)

/-- Strategy 2: word matches with the weighted-overlap score. -/
def wordMatches (docs : List Document) (query : Text) : List (Document × ℚ) :=
  docs.filterMap (fun d =>
    if 0 < matchedWordCount (expandedQueryWords query) (lower d.content) then
      some (d, wordScore (expandedQueryWords query) (lower d.content))
    else none)

def fuzzyHit (qw contentLower : Text) : Bool :=
  (splitWs contentLower).any (fun w => isSubstring qw w || isSubstring w qw)

/-- Strategies 3 and 4 (the source's `partial_matches` list): the question
fallback at `0.4` and the single-long-token fuzzy match at `0.3`, both only
for documents with no strategy-2 word match (the `elif` chain). -/
def looseMatches (docs : List Document) (query : Text) : List (Document × ℚ) :=
  docs.filterMap (fun d =>
    if 0 < matchedWordCount (expandedQueryWords query) (lower d.content) then none
    else if isQuestion query then some (d, 2 / 5)
    else
      match expandedQueryWords query with
      | [qw] => if 4 < qw.length && fuzzyHit qw (lower d.content) then some (d, 3 / 10) else none
      | _ => none)

/-- `all_matches = exact_matches + word_matches + partial_matches`. -/
def allMatches (docs : List Document) (query : Text) : List (Document × ℚ) :=
  exactMatches docs query ++ (wordMatches docs query ++ looseMatches docs query)

/-- `all_matches.sort(key=lambda x: x[1], reverse=True)` (stable). -/
def sortedMatches (docs : List Document) (query : Text) : List (Document × ℚ) :=
  stableSortDesc (fun p => p.2) (allMatches docs query)

/-- The `seen_docs` dedup loop: keep the first occurrence of each document id. -/
def dedupByIdGo : List (Document × ℚ) → List Text → List (Document × ℚ)
  | [], _ => []
  | p :: rest, seen =>
    if seen.contains p.1.id then dedupByIdGo rest seen
    else p :: dedupByIdGo rest (p.1.id :: seen)

/-- `unique_matches`. -/
def uniqueMatches (docs : List Document) (query : Text) : List (Document × ℚ) :=
  dedupByIdGo (sortedMatches docs query) []

/-! ### Answer synthesis (`services.py`, `LLMService.synthesize_answer`) -/

structure QueryResponse where
  answer : Text
  sources : List Text
  confidence : ℚ
deriving DecidableEq

def noRelevantMsg : Text := str "No relevant information found in the uploaded documents."

def contextPart (s : DocumentStorage) (chunk : DocumentChunk) : Text :=
  (match get_document s chunk.document_id with
   | some doc => str "Document: " ++ doc.filename
   | none => str "Document: " ++ (str "Document " ++ chunk.document_id))
  ++ str "\n" ++ str "Content: " ++ chunk.content ++ str "\n"

def buildPrompt (context query : Text) : Text :=
  str "Using these documents, answer the user\x27s question succinctly.\n\nContext from documents:\n"
    ++ context ++ str "\n\nUser question: " ++ query
    ++ str "\n\nPlease provide a clear, concise answer based on the information in the documents. If the documents don\x27t contain enough information to fully answer the question, mention what information is available and what might be missing."

/-- `LLMService.synthesize_answer`: the fixed no-chunk answer, the stripped
provider response on success, or the deterministic concatenation (carrying
the `LLM synthesis unavailable` marker and the exception text) on failure. -/
def synthesize_answer (s : DocumentStorage) (llm : Text → Except Text Text)
    (query : Text) (relevantChunks : List DocumentChunk) : Text :=
  if relevantChunks.isEmpty then noRelevantMsg
  else
    match llm (buildPrompt
        (List.intercalate (str "\n---\n") (relevantChunks.map (contextPart s))) query) with
    | Except.ok t => strip t
    | Except.error e =>
        (relevantChunks.foldl (fun acc chunk =>
            acc ++ str "From "
              ++ (match get_document s chunk.document_id with
                  | some doc => doc.filename
                  | none => str "Unknown document")
              ++ str ": " ++ chunk.content ++ str "\n\n")
          (str "Based on the available documents:\n\n"))
        ++ str "\n(Note: LLM synthesis unavailable: " ++ e ++ str ")"

/-! ### Query pipeline (`routes.py`, `query_documents`)

The outer `try/except` returning HTTP 500 and the
`except` at the end of the synthesis block are unreachable in this model: all
modelled operations are total, and the only exceptions of the source
(provider failures inside `synthesize_answer`, service-initialisation
failures) are modelled by the `llm` function's `Except.error` outcome, which
reaches the same fallback branches.  The empty-query HTTP 400 is the
`Except.error` result. -/

def noDocsMsg : Text :=
  str "No documents have been uploaded yet. Please upload some documents first."

/-- The per-document chunks built in the no-match branch: up to three stored
chunks, else one 800-character content preview. -/
def noMatchChunks (docs : List Document) : List DocumentChunk :=
  docs.flatMap (fun d =>
    if !d.chunks.isEmpty then
      (d.chunks.take 3).enum.map (fun ic =>
        { document_id := d.id, chunk_index := ic.1, content := ic.2, embedding := none })
    else
      [{ document_id := d.id, chunk_index := 0, content := d.content.take 800,
         embedding := none }])

/-- The first-two-sentence topic summary of a document (no-match fallback). -/
def topicOf (d : Document) : Text :=
  if 100 < (List.intercalate ['.'] ((d.content.splitOn '.').take 2)).length then
    (strip (List.intercalate ['.'] ((d.content.splitOn '.').take 2))).take 100 ++ str "..."
  else strip (List.intercalate ['.'] ((d.content.splitOn '.').take 2))

def docTopics (docs : List Document) : Text :=
  List.intercalate (str "\n")
    ((docs.take 3).map (fun d => str "• " ++ d.filename ++ str ": " ++ topicOf d))

/-- The document-overview fallback response of the no-match branch. -/
def topicResponse (docs : List Document) (query : Text) : QueryResponse :=
  { answer := str "I couldn\x27t find specific information about \x27" ++ query
      ++ str "\x27 in your documents. Here\x27s what your documents contain:\n\n"
      ++ docTopics docs
      ++ str "\n\nTry asking about these topics or upload more relevant documents.",
    sources := docs.map (fun d => d.filename),
    confidence := 1 / 10 }

/-- The `unique_matches`-empty branch: try LLM synthesis over all documents'
chunks and accept the answer when it is long enough and does not flag missing
information; otherwise fall back to the topic overview. -/
def noMatchResponse (s : DocumentStorage) (docs : List Document) (query : Text)
    (llm : Text → Except Text Text) : QueryResponse :=
  if !(synthesize_answer s llm query (noMatchChunks docs)).isEmpty
      && 20 < (strip (synthesize_answer s llm query (noMatchChunks docs))).length
      && !(isSubstring (str "no relevant information")
            (lower (synthesize_answer s llm query (noMatchChunks docs)))) then
    { answer := synthesize_answer s llm query (noMatchChunks docs),
      sources := docs.map (fun d => d.filename),
      confidence := 3 / 5 }
  else topicResponse docs query

/-- A `relevant_contexts` entry. -/
structure RContext where
  content : Text
  filename : Text
  score : ℚ
deriving DecidableEq

/-- `relevant_contexts`: per selected document, its first three chunks or a
1000-character content preview. -/
def relevantContexts (selected : List (Document × ℚ)) : List RContext :=
  selected.flatMap (fun p =>
    if !p.1.chunks.isEmpty then
      (p.1.chunks.take 3).map (fun c =>
        { content := c, filename := p.1.filename, score := p.2 })
    else
      [{ content := if 1000 < p.1.content.length then p.1.content.take 1000 ++ str "..."
           else p.1.content,
         filename := p.1.filename, score := p.2 }])

/-- The `DocumentChunk` list handed to the LLM (`temp_i` ids). -/
def llmChunksOf (ctxs : List RContext) : List DocumentChunk :=
  ctxs.enum.map (fun ic =>
    { document_id := str "temp_" ++ natText ic.1, chunk_index := ic.1,
      content := ic.2.content, embedding := none })

def confidenceIndicator (score : ℚ) : Text :=
  if 4 / 5 < score then str "High" else if 1 / 2 < score then str "Medium" else str "Low"

/-- The context-extraction fallback used when LLM synthesis fails. -/
def fallbackFromContexts (ctxs : List RContext) : Text :=
  List.intercalate (str "\n\n") ((ctxs.take 3).map (fun c =>
    str "**From " ++ c.filename ++ str "** (" ++ confidenceIndicator c.score
      ++ str " relevance):\n" ++ c.content))

/-- `max(score for _, score in unique_matches[:max_results])`; the scores in
scope are nonnegative, so folding `max` from `0` agrees with Python's `max`
on these nonempty lists. -/
def maxScore (sel : List (Document × ℚ)) : ℚ := (sel.map (fun p => p.2)).foldr max 0

/-- The branch of `query_documents` taken when `unique_matches` is nonempty:
select the top `min(max_results, len(unique_matches))` matches, build their
contexts, attempt LLM synthesis (accepting sufficiently long answers without
the `LLM synthesis unavailable` marker), and otherwise extract context
directly; all paths clamp the confidence at `1.0` on return. -/
def matchesResponse (s : DocumentStorage) (query : Text) (maxResults : Nat)
    (llm : Text → Except Text Text) (um : List (Document × ℚ)) : QueryResponse :=
  if !(relevantContexts (um.take (min maxResults um.length))).isEmpty then
    if !(synthesize_answer s llm query
          (llmChunksOf (relevantContexts (um.take (min maxResults um.length))))).isEmpty
        && 10 < (strip (synthesize_answer s llm query
            (llmChunksOf (relevantContexts (um.take (min maxResults um.length)))))).length
        && !(isSubstring (str "LLM synthesis unavailable")
            (synthesize_answer s llm query
              (llmChunksOf (relevantContexts (um.take (min maxResults um.length)))))) then
      { answer := synthesize_answer s llm query
          (llmChunksOf (relevantContexts (um.take (min maxResults um.length)))),
        sources := (um.take (min maxResults um.length)).map (fun p => p.1.filename),
        confidence :=
          min (min (maxScore (um.take (min maxResults um.length)) + 3 / 10) 1) 1 }
    else
      { answer := fallbackFromContexts (relevantContexts (um.take (min maxResults um.length))),
        sources := (um.take (min maxResults um.length)).map (fun p => p.1.filename),
        confidence := min (maxScore (um.take (min maxResults um.length))) 1 }
  else
    if !((relevantContexts (um.take (min maxResults um.length))).take 2).isEmpty then
      { answer := List.intercalate (str "\n\n")
          (((relevantContexts (um.take (min maxResults um.length))).take 2).map (fun c =>
            str "From " ++ c.filename ++ str ": " ++ c.content.take 200 ++ str "...")),
        sources := (um.take (min maxResults um.length)).map (fun p => p.1.filename),
        confidence := min (maxScore (um.take (min maxResults um.length))) 1 }
    else
      { answer := str "Found some references to \x27" ++ query
          ++ str "\x27 but couldn\x27t extract clear information.",
        sources := (um.take (min maxResults um.length)).map (fun p => p.1.filename),
        confidence := min (1 / 5) 1 }

/-- `query_documents` (`routes.py`): empty-query validation, the no-documents
response, the multi-strategy lexical match with the question fallback at
`0.5`, and the three response branches. -/
def queryDocuments (s : DocumentStorage) (query : Text) (maxResults : Nat)
    (llm : Text → Except Text Text) : Except Text QueryResponse :=
  if (strip query).isEmpty then Except.error (str "Query cannot be empty")
  else if (get_all_documents s).isEmpty then
    Except.ok { answer := noDocsMsg, sources := [], confidence := 0 }
  else if isQuestion query && (uniqueMatches (get_all_documents s) query).isEmpty then
    Except.ok (matchesResponse s query maxResults llm
      ((get_all_documents s).map (fun d => (d, 1 / 2))))
  else if (uniqueMatches (get_all_documents s) query).isEmpty then
    Except.ok (noMatchResponse s (get_all_documents s) query llm)
  else
    Except.ok (matchesResponse s query maxResults llm
      (uniqueMatches (get_all_documents s) query))

/-! ### Ranking lemmas -/

theorem findIdx_le_of_getElem {α : Type} (p : α → Bool) :
    ∀ (l : List α) (i : Nat) (h : i < l.length), p (l.get ⟨i, h⟩) = true →
      l.findIdx p ≤ i := by
  intro l
  induction l with
  | nil => intro i h; simp at h
  | cons x xs ih =>
    intro i h hp
    rw [List.findIdx_cons]
    cases hx : p x with
    | true => simp
    | false =>
      simp only [hx, cond_false]
      cases i with
      | zero => simp at hp; rw [hp] at hx; cases hx
      | succ j =>
        have := ih j (by simpa using h) (by simpa using hp)
        omega

theorem mem_pair_sublist {α : Type} [DecidableEq α] {x y : α} :
    ∀ {l : List α}, x ∈ l → y ∈ l → x ≠ y →
      [x, y].Sublist l ∨ [y, x].Sublist l := by
  intro l
  induction l with
  | nil => intro hx; simp at hx
  | cons a L ih =>
    intro hx hy hne
    by_cases hxa : x = a
    · subst hxa
      have hyL : y ∈ L := by
        rcases List.mem_cons.mp hy with h | h
        · exact absurd h.symm hne
        · exact h
      exact Or.inl (List.cons_sublist_cons.mpr (List.singleton_sublist.mpr hyL))
    · by_cases hya : y = a
      · subst hya
        have hxL : x ∈ L := by
          rcases List.mem_cons.mp hx with h | h
          · exact absurd h hxa
          · exact h
        exact Or.inr (List.cons_sublist_cons.mpr (List.singleton_sublist.mpr hxL))
      · have hxL : x ∈ L := by
          rcases List.mem_cons.mp hx with h | h
          · exact absurd h hxa
          · exact h
        have hyL : y ∈ L := by
          rcases List.mem_cons.mp hy with h | h
          · exact absurd h hya
          · exact h
        rcases ih hxL hyL hne with h | h
        · exact Or.inl (h.cons a)
        · exact Or.inr (h.cons a)

theorem enum_mem_iff {α : Type} {l : List α} {p : Nat × α} :
    p ∈ l.enum ↔ ∃ h : p.1 < l.length, l.get ⟨p.1, h⟩ = p.2 := by
  constructor
  · intro hp
    rcases List.mem_iff_getElem.mp hp with ⟨n, hn, hget⟩
    have hlen : n < l.length := by simpa using hn
    rw [List.getElem_enum] at hget
    have h1 : n = p.1 := by rw [← hget]
    have h2 : l[n] = p.2 := by rw [← hget]
    subst h1
    exact ⟨hlen, h2⟩
  · intro ⟨h, hget⟩
    apply List.mem_iff_getElem.mpr
    refine ⟨p.1, by simpa using h, ?_⟩
    rw [List.getElem_enum]
    simp only [List.get_eq_getElem] at hget
    rw [hget]

theorem sortedEnum_nodup_fst {α : Type} {K : Type} [LinearOrder K] (key : α → K)
    (l : List α) : ((sortedEnum key l).map Prod.fst).Nodup := by
  have hperm : ((sortedEnum key l).map Prod.fst).Perm (l.enum.map Prod.fst) :=
    (sortedEnum_perm key l).map Prod.fst
  rw [hperm.nodup_iff, List.enum_map_fst]
  exact List.nodup_range l.length

theorem dedupByIdGo_sublist : ∀ (S : List (Document × ℚ)) (seen : List Text),
    (dedupByIdGo S seen).Sublist S := by
  intro S
  induction S with
  | nil => intro seen; exact List.Sublist.refl []
  | cons x T ih =>
    intro seen
    unfold dedupByIdGo
    by_cases h : seen.contains x.1.id = true
    · rw [if_pos h]; exact (ih seen).cons x
    · rw [if_neg h]; exact List.cons_sublist_cons.mpr (ih (x.1.id :: seen))

theorem mem_dedup_not_seen : ∀ (S : List (Document × ℚ)) (seen : List Text)
    (p : Document × ℚ), p ∈ dedupByIdGo S seen → seen.contains p.1.id = false := by
  intro S
  induction S with
  | nil => intro seen p hp; simp [dedupByIdGo] at hp
  | cons x T ih =>
    intro seen p hp
    unfold dedupByIdGo at hp
    by_cases h : seen.contains x.1.id = true
    · rw [if_pos h] at hp; exact ih seen p hp
    · rw [if_neg h] at hp
      rcases List.mem_cons.mp hp with heq | hmem
      · rw [heq]; simpa using h
      · have := ih (x.1.id :: seen) p hmem
        simp only [List.contains_cons, Bool.or_eq_false_iff] at this
        exact this.2

theorem dedup_nodup_ids : ∀ (S : List (Document × ℚ)) (seen : List Text),
    ((dedupByIdGo S seen).map (fun p => p.1.id)).Nodup := by
  intro S
  induction S with
  | nil => intro seen; simp [dedupByIdGo]
  | cons x T ih =>
    intro seen
    unfold dedupByIdGo
    by_cases h : seen.contains x.1.id = true
    · rw [if_pos h]; exact ih seen
    · rw [if_neg h]
      simp only [List.map_cons]
      rw [List.nodup_cons]
      refine ⟨?_, ih (x.1.id :: seen)⟩
      intro hmem
      rcases List.mem_map.mp hmem with ⟨p, hp, hpid⟩
      have := mem_dedup_not_seen T (x.1.id :: seen) p hp
      simp only [List.contains_cons, Bool.or_eq_false_iff] at this
      have h1 := this.1
      rw [hpid] at h1
      simp at h1

theorem mem_dedup_first : ∀ (S : List (Document × ℚ)) (seen : List Text)
    (p : Document × ℚ), p ∈ dedupByIdGo S seen →
    ∃ (b : Nat) (hb : b < S.length), S.get ⟨b, hb⟩ = p ∧
      ∀ (c : Nat) (hc : c < S.length), c < b → (S.get ⟨c, hc⟩).1.id ≠ p.1.id := by
  intro S
  induction S with
  | nil => intro seen p hp; simp [dedupByIdGo] at hp
  | cons x T ih =>
    intro seen p hp
    unfold dedupByIdGo at hp
    by_cases h : seen.contains x.1.id = true
    · rw [if_pos h] at hp
      obtain ⟨b, hb, hget, hfirst⟩ := ih seen p hp
      refine ⟨b + 1, by simpa using Nat.succ_lt_succ hb, by simpa using hget, ?_⟩
      intro c hc hcb
      cases c with
      | zero =>
        simp only [List.get]
        intro hcon
        have hns := mem_dedup_not_seen T seen p hp
        rw [← hcon] at hns
        rw [h] at hns
        cases hns
      | succ c' =>
        have := hfirst c' (by simpa using hc) (by omega)
        simpa using this
    · rw [if_neg h] at hp
      rcases List.mem_cons.mp hp with heq | hmem
      · subst heq
        exact ⟨0, by simp, by simp, by intro c hc hc0; omega⟩
      · obtain ⟨b, hb, hget, hfirst⟩ := ih (x.1.id :: seen) p hmem
        refine ⟨b + 1, by simpa using Nat.succ_lt_succ hb, by simpa using hget, ?_⟩
        intro c hc hcb
        cases c with
        | zero =>
          simp only [List.get]
          intro hcon
          have hns := mem_dedup_not_seen T (x.1.id :: seen) p hmem
          simp only [List.contains_cons, Bool.or_eq_false_iff] at hns
          have h1 := hns.1
          rw [← hcon] at h1
          simp at h1
        | succ c' =>
          have := hfirst c' (by simpa using hc) (by omega)
          simpa using this

theorem first_mem_dedup : ∀ (S : List (Document × ℚ)) (seen : List Text)
    (v : Document × ℚ) (b : Nat) (hb : b < S.length),
    S.get ⟨b, hb⟩ = v →
    (∀ (c : Nat) (hc : c < S.length), c < b → (S.get ⟨c, hc⟩).1.id ≠ v.1.id) →
    seen.contains v.1.id = false → v ∈ dedupByIdGo S seen := by
  intro S
  induction S with
  | nil => intro seen v b hb; simp at hb
  | cons x T ih =>
    intro seen v b hb hget hfirst hseen
    unfold dedupByIdGo
    cases b with
    | zero =>
      simp only [List.get] at hget
      subst hget
      rw [if_neg (by rw [hseen]; simp)]
      exact List.mem_cons_self _ _
    | succ b' =>
      have hxid : x.1.id ≠ v.1.id := by
        have := hfirst 0 (by simp) (by omega)
        simpa using this
      by_cases h : seen.contains x.1.id = true
      · rw [if_pos h]
        exact ih seen v b' (by simpa using hb) (by simpa using hget)
          (fun c hc hcb => hfirst (c + 1) (by simpa using Nat.succ_lt_succ hc) (by omega))
          hseen
      · rw [if_neg h]
        apply List.mem_cons_of_mem
        refine ih (x.1.id :: seen) v b' (by simpa using hb) (by simpa using hget)
          (fun c hc hcb => hfirst (c + 1) (by simpa using Nat.succ_lt_succ hc) (by omega)) ?_
        simp only [List.contains_cons, Bool.or_eq_false_iff]
        exact ⟨by simpa using Ne.symm hxid, hseen⟩

theorem dedup_pair_pos : ∀ (S : List (Document × ℚ)) (seen : List Text)
    (p q : Document × ℚ), [p, q].Sublist (dedupByIdGo S seen) →
    ∃ (a b : Nat) (ha : a < S.length) (hb : b < S.length), a < b ∧
      S.get ⟨a, ha⟩ = p ∧ S.get ⟨b, hb⟩ = q ∧
      (∀ (c : Nat) (hc : c < S.length), c < a → (S.get ⟨c, hc⟩).1.id ≠ p.1.id) ∧
      (∀ (c : Nat) (hc : c < S.length), c < b → (S.get ⟨c, hc⟩).1.id ≠ q.1.id) := by
  intro S
  induction S with
  | nil => intro seen p q hsub; simp [dedupByIdGo] at hsub
  | cons x T ih =>
    intro seen p q hsub
    have liftPos : ∀ (a b : Nat) (ha : a < T.length) (hb : b < T.length), a < b →
        T.get ⟨a, ha⟩ = p → T.get ⟨b, hb⟩ = q →
        (∀ (c : Nat) (hc : c < T.length), c < a → (T.get ⟨c, hc⟩).1.id ≠ p.1.id) →
        (∀ (c : Nat) (hc : c < T.length), c < b → (T.get ⟨c, hc⟩).1.id ≠ q.1.id) →
        x.1.id ≠ p.1.id → x.1.id ≠ q.1.id →
        ∃ (a' b' : Nat) (ha' : a' < (x :: T).length) (hb' : b' < (x :: T).length),
          a' < b' ∧ (x :: T).get ⟨a', ha'⟩ = p ∧ (x :: T).get ⟨b', hb'⟩ = q ∧
          (∀ (c : Nat) (hc : c < (x :: T).length), c < a' →
            ((x :: T).get ⟨c, hc⟩).1.id ≠ p.1.id) ∧
          (∀ (c : Nat) (hc : c < (x :: T).length), c < b' →
            ((x :: T).get ⟨c, hc⟩).1.id ≠ q.1.id) := by
      intro a b ha hb hab hgp hgq hfp hfq hxp hxq
      refine ⟨a + 1, b + 1, by simpa using Nat.succ_lt_succ ha,
        by simpa using Nat.succ_lt_succ hb, by omega, by simpa using hgp,
        by simpa using hgq, ?_, ?_⟩
      · intro c hc hca
        cases c with
        | zero => simpa using hxp
        | succ c' => exact (by simpa using hfp c' (by simpa using hc) (by omega))
      · intro c hc hcb
        cases c with
        | zero => simpa using hxq
        | succ c' => exact (by simpa using hfq c' (by simpa using hc) (by omega))
    unfold dedupByIdGo at hsub
    by_cases h : seen.contains x.1.id = true
    · rw [if_pos h] at hsub
      obtain ⟨a, b, ha, hb, hab, hgp, hgq, hfp, hfq⟩ := ih seen p q hsub
      have hp := (List.Sublist.mem (List.mem_cons_self p [q]) hsub)
      have hq := (List.Sublist.mem (show q ∈ [p, q] by simp) hsub)
      have hxp : x.1.id ≠ p.1.id := by
        intro hcon
        have := mem_dedup_not_seen T seen p hp
        rw [← hcon, h] at this; cases this
      have hxq : x.1.id ≠ q.1.id := by
        intro hcon
        have := mem_dedup_not_seen T seen q hq
        rw [← hcon, h] at this; cases this
      exact liftPos a b ha hb hab hgp hgq hfp hfq hxp hxq
    · rw [if_neg h] at hsub
      rcases List.sublist_cons_iff.mp hsub with hsub' | ⟨r, hr, hrsub⟩
      · obtain ⟨a, b, ha, hb, hab, hgp, hgq, hfp, hfq⟩ := ih (x.1.id :: seen) p q hsub'
        have hp := (List.Sublist.mem (List.mem_cons_self p [q]) hsub')
        have hq := (List.Sublist.mem (show q ∈ [p, q] by simp) hsub')
        have hxp : x.1.id ≠ p.1.id := by
          intro hcon
          have := mem_dedup_not_seen T (x.1.id :: seen) p hp
          simp only [List.contains_cons, Bool.or_eq_false_iff] at this
          have := this.1
          rw [← hcon] at this
          simp at this
        have hxq : x.1.id ≠ q.1.id := by
          intro hcon
          have := mem_dedup_not_seen T (x.1.id :: seen) q hq
          simp only [List.contains_cons, Bool.or_eq_false_iff] at this
          have := this.1
          rw [← hcon] at this
          simp at this
        exact liftPos a b ha hb hab hgp hgq hfp hfq hxp hxq
      · have hpx : p = x := by
          have : [p, q] = x :: r := hr
          exact (List.cons.injEq _ _ _ _ ▸ this).1
        have hqr : r = [q] := by
          have : [p, q] = x :: r := hr
          exact ((List.cons.injEq _ _ _ _ ▸ this).2).symm
        subst hpx
        rw [hqr] at hrsub
        have hq : q ∈ dedupByIdGo T (p.1.id :: seen) := List.singleton_sublist.mp hrsub
        obtain ⟨b, hb, hget, hfirst⟩ := mem_dedup_first T (p.1.id :: seen) q hq
        have hpq : p.1.id ≠ q.1.id := by
          have := mem_dedup_not_seen T (p.1.id :: seen) q hq
          simp only [List.contains_cons, Bool.or_eq_false_iff] at this
          have := this.1
          intro hcon
          rw [hcon] at this
          simp at this
        refine ⟨0, b + 1, by simp, by simpa using Nat.succ_lt_succ hb, by omega,
          by simp, by simpa using hget, ?_, ?_⟩
        · intro c hc hc0; omega
        · intro c hc hcb
          cases c with
          | zero => simpa using hpq
          | succ c' => exact (by simpa using hfirst c' (by simpa using hc) (by omega))

theorem exactMatches_mem_iff {docs : List Document} {query : Text} {p : Document × ℚ} :
    p ∈ exactMatches docs query ↔
      p.1 ∈ docs ∧ isSubstring (lower query) (lower p.1.content) = true ∧ p.2 = 1 := by
  unfold exactMatches
  rw [List.mem_filterMap]
  constructor
  · rintro ⟨d, hd, hsome⟩
    by_cases hs : isSubstring (lower query) (lower d.content) = true
    · rw [if_pos hs] at hsome
      have hpd : p = (d, 1) := by exact (Option.some.injEq _ _ ▸ hsome).symm
      rw [hpd]
      exact ⟨hd, hs, rfl⟩
    · rw [if_neg hs] at hsome
      cases hsome
  · rintro ⟨hd, hs, hp2⟩
    refine ⟨p.1, hd, ?_⟩
    rw [if_pos hs]
    congr 1
    exact Prod.ext rfl hp2.symm

theorem wordMatches_mem {docs : List Document} {query : Text} {p : Document × ℚ}
    (hp : p ∈ wordMatches docs query) :
    p.1 ∈ docs ∧ 0 < matchedWordCount (expandedQueryWords query) (lower p.1.content)
      ∧ p.2 = wordScore (expandedQueryWords query) (lower p.1.content) := by
  unfold wordMatches at hp
  rcases List.mem_filterMap.mp hp with ⟨d, hd, hsome⟩
  by_cases hc : 0 < matchedWordCount (expandedQueryWords query) (lower d.content)
  · rw [if_pos hc] at hsome
    have hpd : p = (d, wordScore (expandedQueryWords query) (lower d.content)) :=
      (Option.some.injEq _ _ ▸ hsome).symm
    rw [hpd]
    exact ⟨hd, hc, rfl⟩
  · rw [if_neg hc] at hsome
    cases hsome

theorem looseMatches_mem {docs : List Document} {query : Text} {p : Document × ℚ}
    (hp : p ∈ looseMatches docs query) :
    p.1 ∈ docs ∧ matchedWordCount (expandedQueryWords query) (lower p.1.content) = 0
      ∧ p.2 = (if isQuestion query = true then (2 : ℚ) / 5 else 3 / 10) := by
  unfold looseMatches at hp
  rcases List.mem_filterMap.mp hp with ⟨d, hd, hsome⟩
  by_cases hc : 0 < matchedWordCount (expandedQueryWords query) (lower d.content)
  · rw [if_pos hc] at hsome; cases hsome
  · rw [if_neg hc] at hsome
    by_cases hq : isQuestion query = true
    · rw [if_pos hq] at hsome
      have hpd : p = (d, 2 / 5) := (Option.some.injEq _ _ ▸ hsome).symm
      rw [hpd]
      refine ⟨hd, ?_, ?_⟩
      · show matchedWordCount (expandedQueryWords query) (lower d.content) = 0
        omega
      · show (2 : ℚ) / 5 = _
        rw [if_pos hq]
    · rw [if_neg hq] at hsome
      rcases hews : expandedQueryWords query with _ | ⟨qw, rest⟩
      · rw [hews] at hsome
        dsimp only [] at hsome
        exact Option.noConfusion hsome
      · rcases rest with _ | ⟨w2, rest2⟩
        · rw [hews] at hsome
          dsimp only [] at hsome
          by_cases hcond : (decide (4 < qw.length) && fuzzyHit qw (lower d.content)) = true
          · rw [if_pos hcond] at hsome
            have hpd : p = (d, 3 / 10) := (Option.some.injEq _ _ ▸ hsome).symm
            rw [hpd]
            refine ⟨hd, ?_, ?_⟩
            · show matchedWordCount [qw] (lower d.content) = 0
              rw [hews] at hc
              omega
            · show (3 : ℚ) / 10 = _
              rw [if_neg hq]
          · rw [if_neg hcond] at hsome
            exact Option.noConfusion hsome
        · rw [hews] at hsome
          dsimp only [] at hsome
          exact Option.noConfusion hsome

theorem allMatches_doc_mem {docs : List Document} {query : Text} {p : Document × ℚ}
    (hp : p ∈ allMatches docs query) : p.1 ∈ docs := by
  unfold allMatches at hp
  rcases List.mem_append.mp hp with h | h
  · exact (exactMatches_mem_iff.mp h).1
  · rcases List.mem_append.mp h with h2 | h2
    · exact (wordMatches_mem h2).1
    · exact (looseMatches_mem h2).1

theorem wordScore_le_one (qws : List Text) (c : Text) : wordScore qws c ≤ 1 := by
  unfold wordScore
  have hm : matchedWordCount qws c ≤ qws.length := List.countP_le_length _
  have h1 : ((matchedWordCount qws c : ℚ) / (qws.length : ℚ)) ≤ 1 := by
    by_cases hn : qws.length = 0
    · have : matchedWordCount qws c = 0 := by omega
      rw [this, hn]
      norm_num
    · rw [div_le_one (by positivity)]
      exact_mod_cast hm
  have h2 : ((matchedWordCount qws c : ℚ) / (qws.length : ℚ)) ≥ 0 := by positivity
  have h3 : min ((wordOccTotal qws c : ℚ) / 10) (3 / 10) ≤ 3 / 10 := min_le_right _ _
  nlinarith

theorem allMatches_score_le_one {docs : List Document} {query : Text} {p : Document × ℚ}
    (hp : p ∈ allMatches docs query) : p.2 ≤ 1 := by
  unfold allMatches at hp
  rcases List.mem_append.mp hp with h | h
  · rw [(exactMatches_mem_iff.mp h).2.2]
  · rcases List.mem_append.mp h with h2 | h2
    · rw [(wordMatches_mem h2).2.2]
      exact wordScore_le_one _ _
    · rw [(looseMatches_mem h2).2.2]
      split <;> norm_num

theorem wl_same_id_eq {docs : List Document} {query : Text} {z z' : Document × ℚ}
    (hnd : (docs.map (fun d => d.id)).Nodup)
    (hz : z ∈ wordMatches docs query ++ looseMatches docs query)
    (hz' : z' ∈ wordMatches docs query ++ looseMatches docs query)
    (hid : z.1.id = z'.1.id) : z = z' := by
  have hdocs : z.1 ∈ docs ∧ z'.1 ∈ docs := by
    rcases List.mem_append.mp hz with h | h <;>
      rcases List.mem_append.mp hz' with h' | h' <;>
      exact ⟨((by first | exact (wordMatches_mem h).1 | exact (looseMatches_mem h).1)),
             ((by first | exact (wordMatches_mem h').1 | exact (looseMatches_mem h').1))⟩
  have hdeq : z.1 = z'.1 :=
    List.inj_on_of_nodup_map hnd hdocs.1 hdocs.2 hid
  rcases List.mem_append.mp hz with h | h <;> rcases List.mem_append.mp hz' with h' | h'
  · have e1 := (wordMatches_mem h).2.2
    have e2 := (wordMatches_mem h').2.2
    refine Prod.ext hdeq ?_
    rw [e1, e2, hdeq]
  · exfalso
    have c1 := (wordMatches_mem h).2.1
    have c2 := (looseMatches_mem h').2.1
    rw [hdeq] at c1
    omega
  · exfalso
    have c1 := (looseMatches_mem h).2.1
    have c2 := (wordMatches_mem h').2.1
    rw [hdeq] at c1
    omega
  · have e1 := (looseMatches_mem h).2.2
    have e2 := (looseMatches_mem h').2.2
    refine Prod.ext hdeq ?_
    rw [e1, e2]

theorem allMatches_length_split (docs : List Document) (query : Text) :
    (allMatches docs query).length =
      (exactMatches docs query).length +
        (wordMatches docs query ++ looseMatches docs query).length :=
  List.length_append _ _

theorem allMatches_getElem_left (docs : List Document) (query : Text) (i : Nat)
    (hi : i < (exactMatches docs query).length)
    (hiA : i < (allMatches docs query).length) :
    (allMatches docs query)[i] = (exactMatches docs query)[i] :=
  List.getElem_append_left hi

theorem allMatches_getElem_right (docs : List Document) (query : Text) (i : Nat)
    (hiA : i < (allMatches docs query).length)
    (hiE : (exactMatches docs query).length ≤ i)
    (hiWL : i - (exactMatches docs query).length
      < (wordMatches docs query ++ looseMatches docs query).length) :
    (allMatches docs query)[i] =
      (wordMatches docs query ++ looseMatches docs query)[i - (exactMatches docs query).length] :=
  List.getElem_append_right hiE

/-- In `allMatches`, the first entry bearing a given document id is the
highest-scoring entry of that id: an exact entry (score `1.0`) sits in the
leading segment, and a document without an exact match contributes exactly
one entry to the word/fallback segments. -/
theorem firstIdx_kept (docs : List Document) (query : Text)
    (hnd : (docs.map (fun d => d.id)).Nodup) (p : Document × ℚ)
    (hpA : p ∈ allMatches docs query)
    (hmax : ∀ z ∈ allMatches docs query, z.1.id = p.1.id → z.2 ≤ p.2) :
    ∃ hf : (allMatches docs query).findIdx (fun z => z.1.id == p.1.id)
        < (allMatches docs query).length,
      (allMatches docs query).get
        ⟨(allMatches docs query).findIdx (fun z => z.1.id == p.1.id), hf⟩ = p := by
  have hf : (allMatches docs query).findIdx (fun z => z.1.id == p.1.id)
      < (allMatches docs query).length :=
    List.findIdx_lt_length.mpr ⟨p, hpA, by simp⟩
  refine ⟨hf, ?_⟩
  rw [List.get_eq_getElem]
  have hv0 : ((allMatches docs query)[(allMatches docs query).findIdx
      (fun z => z.1.id == p.1.id)]).1.id = p.1.id := by
    have h := @List.findIdx_getElem _ (fun z => z.1.id == p.1.id) (allMatches docs query) hf
    simpa using h
  have hv0A : (allMatches docs query)[(allMatches docs query).findIdx
      (fun z => z.1.id == p.1.id)] ∈ allMatches docs query := List.getElem_mem _
  have hdeq : ((allMatches docs query)[(allMatches docs query).findIdx
      (fun z => z.1.id == p.1.id)]).1 = p.1 :=
    List.inj_on_of_nodup_map hnd (allMatches_doc_mem hv0A) (allMatches_doc_mem hpA) hv0
  by_cases hlt : (allMatches docs query).findIdx (fun z => z.1.id == p.1.id)
      < (exactMatches docs query).length
  · have hEg := allMatches_getElem_left docs query _ hlt hf
    have hvE : (allMatches docs query)[(allMatches docs query).findIdx
        (fun z => z.1.id == p.1.id)] ∈ exactMatches docs query := by
      rw [hEg]; exact List.getElem_mem _
    have hv2 := (exactMatches_mem_iff.mp hvE).2.2
    have hple := allMatches_score_le_one hpA
    have hge1 := hmax _ hv0A hv0
    rw [hv2] at hge1
    refine Prod.ext hdeq ?_
    rw [hv2]
    linarith
  · have hge : (exactMatches docs query).length ≤
        (allMatches docs query).findIdx (fun z => z.1.id == p.1.id) := by omega
    have hsub : (allMatches docs query).findIdx (fun z => z.1.id == p.1.id)
        - (exactMatches docs query).length
        < (wordMatches docs query ++ looseMatches docs query).length := by
      have := allMatches_length_split docs query
      omega
    have hWLg := allMatches_getElem_right docs query _ hf hge hsub
    have hWL : (allMatches docs query)[(allMatches docs query).findIdx
        (fun z => z.1.id == p.1.id)] ∈
        wordMatches docs query ++ looseMatches docs query := by
      rw [hWLg]; exact List.getElem_mem _
    rcases List.mem_append.mp
        (show p ∈ exactMatches docs query ++
          (wordMatches docs query ++ looseMatches docs query) from hpA) with hpE | hpWL
    · exfalso
      rcases List.mem_iff_getElem.mp hpE with ⟨k, hk, hEk⟩
      have hkA : k < (allMatches docs query).length := by
        have := allMatches_length_split docs query
        omega
      have hAk : (allMatches docs query)[k] = p := by
        rw [allMatches_getElem_left docs query k hk hkA, hEk]
      have := findIdx_le_of_getElem (fun z => z.1.id == p.1.id)
        (allMatches docs query) k hkA (by rw [List.get_eq_getElem, hAk]; simp)
      omega
    · exact wl_same_id_eq hnd hWL hpWL hv0

/-- The entry at the first position of a given document id in the sorted match
list dominates every same-id entry of `allMatches`. -/
theorem sorted_first_max (docs : List Document) (query : Text) (a : Nat)
    (haS : a < (sortedMatches docs query).length)
    (hfirst : ∀ (c : Nat) (hc : c < (sortedMatches docs query).length), c < a →
      ((sortedMatches docs query).get ⟨c, hc⟩).1.id
        ≠ ((sortedMatches docs query).get ⟨a, haS⟩).1.id) :
    ∀ z ∈ allMatches docs query,
      z.1.id = ((sortedMatches docs query).get ⟨a, haS⟩).1.id →
      z.2 ≤ ((sortedMatches docs query).get ⟨a, haS⟩).2 := by
  intro z hz hid
  have hzS : z ∈ sortedMatches docs query := (stableSortDesc_perm _ _).mem_iff.mpr hz
  rcases List.mem_iff_getElem.mp hzS with ⟨c, hc, hgc⟩
  rcases lt_trichotomy c a with h | h | h
  · exfalso
    refine hfirst c hc h ?_
    rw [List.get_eq_getElem, hgc]
    exact hid
  · subst h
    rw [List.get_eq_getElem, hgc]
  · have hpw : List.Pairwise (fun u v : Document × ℚ => v.2 ≤ u.2) (sortedMatches docs query) :=
      stableSortDesc_pairwise (fun p : Document × ℚ => p.2) (allMatches docs query)
    have hle := List.pairwise_iff_getElem.mp hpw a c haS hc h
    rw [hgc] at hle
    rw [List.get_eq_getElem]
    exact hle

/-- The sorted-enum entry at the first position of a document id carries, as
its original index, the position of the first same-id entry of `allMatches`
— and that entry of `allMatches` is the kept (maximal) one. -/
theorem sorted_first_enum_idx (docs : List Document) (query : Text)
    (hnd : (docs.map (fun d => d.id)).Nodup) (a : Nat)
    (haS : a < (sortedMatches docs query).length)
    (hfirst : ∀ (c : Nat) (hc : c < (sortedMatches docs query).length), c < a →
      ((sortedMatches docs query).get ⟨c, hc⟩).1.id
        ≠ ((sortedMatches docs query).get ⟨a, haS⟩).1.id) :
    ∃ (ha2 : a < (sortedEnum (fun p : Document × ℚ => p.2) (allMatches docs query)).length)
      (hfv : (allMatches docs query).findIdx
          (fun z => z.1.id == ((sortedMatches docs query).get ⟨a, haS⟩).1.id)
        < (allMatches docs query).length),
      (sortedEnum (fun p : Document × ℚ => p.2) (allMatches docs query)).get ⟨a, ha2⟩ =
        ((allMatches docs query).findIdx
          (fun z => z.1.id == ((sortedMatches docs query).get ⟨a, haS⟩).1.id),
         (sortedMatches docs query).get ⟨a, haS⟩)
      ∧ (allMatches docs query).get ⟨(allMatches docs query).findIdx
          (fun z => z.1.id == ((sortedMatches docs query).get ⟨a, haS⟩).1.id), hfv⟩ =
        (sortedMatches docs query).get ⟨a, haS⟩ := by
  have hlen_eq : (sortedMatches docs query).length =
      (sortedEnum (fun p : Document × ℚ => p.2) (allMatches docs query)).length :=
    List.length_map _ _
  have ha2 : a < (sortedEnum (fun p : Document × ℚ => p.2) (allMatches docs query)).length := by
    omega
  have hvA : (sortedMatches docs query).get ⟨a, haS⟩ ∈ allMatches docs query :=
    (stableSortDesc_perm (fun p : Document × ℚ => p.2) (allMatches docs query)).mem_iff.mp
      (List.get_mem (sortedMatches docs query) a haS)
  have hmax := sorted_first_max docs query a haS hfirst
  obtain ⟨hfv, hkept⟩ := firstIdx_kept docs query hnd _ hvA hmax
  have hkeptg : (allMatches docs query).get ⟨(allMatches docs query).findIdx
      (fun z => z.1.id == ((sortedMatches docs query).get ⟨a, haS⟩).1.id), hfv⟩ =
      (sortedMatches docs query).get ⟨a, haS⟩ := hkept
  refine ⟨ha2, hfv, ?_, hkeptg⟩
  have hsnd : ((sortedEnum (fun p : Document × ℚ => p.2) (allMatches docs query)).get ⟨a, ha2⟩).2
      = (sortedMatches docs query).get ⟨a, haS⟩ :=
    (List.getElem_map Prod.snd).symm
  have heaMem : (sortedEnum (fun p : Document × ℚ => p.2) (allMatches docs query)).get ⟨a, ha2⟩
      ∈ (allMatches docs query).enum :=
    (sortedEnum_perm (fun p : Document × ℚ => p.2) (allMatches docs query)).mem_iff.mp
      (List.get_mem (sortedEnum (fun p : Document × ℚ => p.2) (allMatches docs query)) a ha2)
  obtain ⟨hea1, hea2⟩ := enum_mem_iff.mp heaMem
  have hle1 : (allMatches docs query).findIdx
      (fun z => z.1.id == ((sortedMatches docs query).get ⟨a, haS⟩).1.id)
      ≤ ((sortedEnum (fun p : Document × ℚ => p.2) (allMatches docs query)).get ⟨a, ha2⟩).1 := by
    refine findIdx_le_of_getElem _ _ _ hea1 ?_
    have hea2g : (allMatches docs query).get ⟨((sortedEnum (fun p : Document × ℚ => p.2)
        (allMatches docs query)).get ⟨a, ha2⟩).1, hea1⟩ =
        ((sortedEnum (fun p : Document × ℚ => p.2) (allMatches docs query)).get ⟨a, ha2⟩).2 := hea2
    rw [hea2g, hsnd]
    simp
  have hkmem : ((allMatches docs query).findIdx
        (fun z => z.1.id == ((sortedMatches docs query).get ⟨a, haS⟩).1.id),
      (sortedMatches docs query).get ⟨a, haS⟩) ∈ (allMatches docs query).enum := by
    apply enum_mem_iff.mpr
    exact ⟨hfv, hkeptg⟩
  have hkmem2 : ((allMatches docs query).findIdx
        (fun z => z.1.id == ((sortedMatches docs query).get ⟨a, haS⟩).1.id),
      (sortedMatches docs query).get ⟨a, haS⟩)
      ∈ sortedEnum (fun p : Document × ℚ => p.2) (allMatches docs query) :=
    (sortedEnum_perm (fun p : Document × ℚ => p.2) (allMatches docs query)).mem_iff.mpr hkmem
  rcases List.mem_iff_getElem.mp hkmem2 with ⟨c, hc, hgc0⟩
  have hgc : (sortedEnum (fun p : Document × ℚ => p.2) (allMatches docs query)).get ⟨c, hc⟩ =
      ((allMatches docs query).findIdx
        (fun z => z.1.id == ((sortedMatches docs query).get ⟨a, haS⟩).1.id),
       (sortedMatches docs query).get ⟨a, haS⟩) := hgc0
  have hcS : c < (sortedMatches docs query).length := by omega
  have hScv : (sortedMatches docs query).get ⟨c, hcS⟩ =
      (sortedMatches docs query).get ⟨a, haS⟩ := by
    have hmap : (sortedMatches docs query).get ⟨c, hcS⟩ =
        ((sortedEnum (fun p : Document × ℚ => p.2) (allMatches docs query)).get ⟨c, hc⟩).2 :=
      List.getElem_map Prod.snd
    rw [hmap, hgc]
  have hca : ¬ c < a := fun hlt => hfirst c hcS hlt (by rw [hScv])
  rcases Nat.lt_or_ge a c with hac | hac
  · have hpw := sortedEnum_pairwise (fun p : Document × ℚ => p.2) (allMatches docs query)
    have hlex0 := List.pairwise_iff_getElem.mp hpw a c ha2 hc hac
    have hlex : lexLe (fun p : Document × ℚ => p.2)
        ((sortedEnum (fun p : Document × ℚ => p.2) (allMatches docs query)).get ⟨a, ha2⟩)
        ((sortedEnum (fun p : Document × ℚ => p.2) (allMatches docs query)).get ⟨c, hc⟩)
        = true := hlex0
    rw [hgc] at hlex
    simp only [lexLe, decide_eq_true_eq] at hlex
    rw [hsnd] at hlex
    rcases hlex with hcase | ⟨_, hcase⟩
    · exact absurd hcase (lt_irrefl _)
    · have heq1 : ((sortedEnum (fun p : Document × ℚ => p.2)
          (allMatches docs query)).get ⟨a, ha2⟩).1 =
          (allMatches docs query).findIdx
            (fun z => z.1.id == ((sortedMatches docs query).get ⟨a, haS⟩).1.id) := by
        omega
      exact Prod.ext heq1 hsnd
  · have hca2 : c = a := by omega
    subst hca2
    exact hgc

/-- Stability of the ranked list: two tied entries of `unique_matches` appear
in the order in which their document ids first occur in `all_matches`. -/
theorem uniqueMatches_tie_order (docs : List Document) (query : Text)
    (hnd : (docs.map (fun d => d.id)).Nodup) (p q : Document × ℚ)
    (hsub : [p, q].Sublist (uniqueMatches docs query)) (htie : p.2 = q.2) :
    (allMatches docs query).findIdx (fun z => z.1.id == p.1.id)
      < (allMatches docs query).findIdx (fun z => z.1.id == q.1.id) := by
  obtain ⟨a, b, ha, hb, hab, hgp, hgq, hfp, hfq⟩ :=
    dedup_pair_pos (sortedMatches docs query) [] p q hsub
  have hid : p.1.id ≠ q.1.id := by
    have h := hfq a ha hab
    rw [hgp] at h
    exact h
  obtain ⟨ha2, hfvp, hEa, hKa⟩ := sorted_first_enum_idx docs query hnd a ha
    (fun c hc hca => by rw [hgp]; exact hfp c hc hca)
  obtain ⟨hb2, hfvq, hEb, hKb⟩ := sorted_first_enum_idx docs query hnd b hb
    (fun c hc hcb => by rw [hgq]; exact hfq c hc hcb)
  have hfidp : (allMatches docs query).findIdx
      (fun z => z.1.id == ((sortedMatches docs query).get ⟨a, ha⟩).1.id) =
      (allMatches docs query).findIdx (fun z => z.1.id == p.1.id) := by rw [hgp]
  have hfidq : (allMatches docs query).findIdx
      (fun z => z.1.id == ((sortedMatches docs query).get ⟨b, hb⟩).1.id) =
      (allMatches docs query).findIdx (fun z => z.1.id == q.1.id) := by rw [hgq]
  rw [hfidp, hgp] at hEa
  rw [hfidq, hgq] at hEb
  have hmemp : ((allMatches docs query).findIdx (fun z => z.1.id == p.1.id), p)
      ∈ (allMatches docs query).enum := by
    rw [← hEa]
    exact (sortedEnum_perm (fun p : Document × ℚ => p.2) (allMatches docs query)).mem_iff.mp
      (List.get_mem _ a ha2)
  have hmemq : ((allMatches docs query).findIdx (fun z => z.1.id == q.1.id), q)
      ∈ (allMatches docs query).enum := by
    rw [← hEb]
    exact (sortedEnum_perm (fun p : Document × ℚ => p.2) (allMatches docs query)).mem_iff.mp
      (List.get_mem _ b hb2)
  obtain ⟨hp1, hp2⟩ := enum_mem_iff.mp hmemp
  obtain ⟨hq1, hq2⟩ := enum_mem_iff.mp hmemq
  dsimp only at hp1 hp2 hq1 hq2
  have hpw := sortedEnum_pairwise (fun p : Document × ℚ => p.2) (allMatches docs query)
  have hlex0 := List.pairwise_iff_getElem.mp hpw a b ha2 hb2 hab
  have hlex : lexLe (fun p : Document × ℚ => p.2)
      ((sortedEnum (fun p : Document × ℚ => p.2) (allMatches docs query)).get ⟨a, ha2⟩)
      ((sortedEnum (fun p : Document × ℚ => p.2) (allMatches docs query)).get ⟨b, hb2⟩)
      = true := hlex0
  rw [hEa, hEb] at hlex
  simp only [lexLe, decide_eq_true_eq] at hlex
  have hne : (allMatches docs query).findIdx (fun z => z.1.id == p.1.id)
      ≠ (allMatches docs query).findIdx (fun z => z.1.id == q.1.id) := by
    intro hcon
    have hfin : (⟨(allMatches docs query).findIdx (fun z => z.1.id == p.1.id), hp1⟩ :
        Fin (allMatches docs query).length) = ⟨(allMatches docs query).findIdx
          (fun z => z.1.id == q.1.id), hq1⟩ := Fin.ext hcon
    have hpq : p = q := by rw [← hp2, ← hq2, hfin]
    rw [hpq] at hid
    exact hid rfl
  rcases hlex with hcase | ⟨_, hcase⟩
  · rw [htie] at hcase
    exact absurd hcase (lt_irrefl _)
  · omega

theorem id_mem_dedup : ∀ (S : List (Document × ℚ)) (seen : List Text) (i : Text),
    (∃ z ∈ S, z.1.id = i) → seen.contains i = false →
    ∃ w ∈ dedupByIdGo S seen, w.1.id = i := by
  intro S
  induction S with
  | nil =>
    intro seen i hex
    obtain ⟨z, hz, _⟩ := hex
    simp at hz
  | cons x T ih =>
    intro seen i hex hseen
    unfold dedupByIdGo
    by_cases h : seen.contains x.1.id = true
    · rw [if_pos h]
      obtain ⟨z, hz, hzi⟩ := hex
      rcases List.mem_cons.mp hz with heq | hmem
      · subst heq
        rw [hzi, hseen] at h
        cases h
      · exact ih seen i ⟨z, hmem, hzi⟩ hseen
    · rw [if_neg h]
      by_cases hxi : x.1.id = i
      · exact ⟨x, List.mem_cons_self _ _, hxi⟩
      · obtain ⟨z, hz, hzi⟩ := hex
        rcases List.mem_cons.mp hz with heq | hmem
        · subst heq
          exact absurd hzi hxi
        · obtain ⟨w, hw, hwi⟩ := ih (x.1.id :: seen) i ⟨z, hmem, hzi⟩ (by
            simp only [List.contains_cons, Bool.or_eq_false_iff]
            exact ⟨by simpa using fun hc => hxi hc.symm, hseen⟩)
          exact ⟨w, List.mem_cons_of_mem _ hw, hwi⟩

theorem uniqueMatches_mem_allMatches {docs : List Document} {query : Text}
    {p : Document × ℚ} (hp : p ∈ uniqueMatches docs query) :
    p ∈ allMatches docs query := by
  have hS : p ∈ sortedMatches docs query :=
    (dedupByIdGo_sublist (sortedMatches docs query) []).mem hp
  exact (stableSortDesc_perm (fun p : Document × ℚ => p.2) (allMatches docs query)).mem_iff.mp hS

theorem uniqueMatches_kept_max {docs : List Document} {query : Text}
    {p : Document × ℚ} (hp : p ∈ uniqueMatches docs query) :
    ∀ z ∈ allMatches docs query, z.1.id = p.1.id → z.2 ≤ p.2 := by
  obtain ⟨b, hb, hgb, hfirst⟩ := mem_dedup_first (sortedMatches docs query) [] p hp
  rw [← hgb] at hfirst
  have hmax0 := sorted_first_max docs query b hb hfirst
  rw [hgb] at hmax0
  exact hmax0

theorem foldr_max_le (c : ℚ) : ∀ (l : List ℚ), (∀ x ∈ l, x ≤ c) → 0 ≤ c →
    l.foldr max 0 ≤ c := by
  intro l
  induction l with
  | nil => intro _ hc; simpa using hc
  | cons x xs ih =>
    intro hall hc
    simp only [List.foldr_cons]
    exact max_le (hall x (List.mem_cons_self _ _))
      (ih (fun y hy => hall y (List.mem_cons_of_mem _ hy)) hc)

theorem le_foldr_max : ∀ (l : List ℚ) (x : ℚ), x ∈ l → x ≤ l.foldr max 0 := by
  intro l
  induction l with
  | nil => intro x hx; simp at hx
  | cons y ys ih =>
    intro x hx
    simp only [List.foldr_cons]
    rcases List.mem_cons.mp hx with heq | hmem
    · rw [heq]; exact le_max_left _ _
    · exact le_trans (ih x hmem) (le_max_right _ _)

theorem maxScore_le_one {docs : List Document} {query : Text} (k : Nat) :
    maxScore ((uniqueMatches docs query).take k) ≤ 1 := by
  unfold maxScore
  refine foldr_max_le 1 _ ?_ (by norm_num)
  intro x hx
  rcases List.mem_map.mp hx with ⟨p, hp, hpx⟩
  have hpu : p ∈ uniqueMatches docs query := List.mem_of_mem_take hp
  rw [← hpx]
  exact allMatches_score_le_one (uniqueMatches_mem_allMatches hpu)

theorem relevantContexts_ne_nil {sel : List (Document × ℚ)} (h : sel ≠ []) :
    relevantContexts sel ≠ [] := by
  cases sel with
  | nil => exact absurd rfl h
  | cons p rest =>
    unfold relevantContexts
    rw [List.flatMap_cons]
    intro hcon
    rcases List.append_eq_nil.mp hcon with ⟨h1, _⟩
    cases hch : p.1.chunks with
    | nil => rw [hch] at h1; simp at h1
    | cons a l => rw [hch] at h1; simp at h1

/-- C8: for every document list with pairwise-distinct ids and every query,
the final ranked list `uniqueMatches` of the lexical matcher contains each
document id at most once; each kept entry is an entry of the combined
strategy list `allMatches` whose score dominates every same-id occurrence;
every matched id is represented; the list is sorted by descending score with
ties resolved stably (the entry whose first same-id occurrence appears
earlier in `allMatches` comes first); and the selection used for the answer
has length at most `maxResults`. -/
theorem ranked_matches_spec (docs : List Document) (query : Text) (maxResults : Nat)
    (hnd : (docs.map (fun d => d.id)).Nodup) :
    ((uniqueMatches docs query).map (fun p => p.1.id)).Nodup
    ∧ (∀ p ∈ uniqueMatches docs query, p ∈ allMatches docs query ∧
        ∀ z ∈ allMatches docs query, z.1.id = p.1.id → z.2 ≤ p.2)
    ∧ (∀ z ∈ allMatches docs query, ∃ p ∈ uniqueMatches docs query, p.1.id = z.1.id)
    ∧ List.Pairwise (fun u v : Document × ℚ => v.2 ≤ u.2) (uniqueMatches docs query)
    ∧ (∀ p q : Document × ℚ, [p, q].Sublist (uniqueMatches docs query) → p.2 = q.2 →
        (allMatches docs query).findIdx (fun z => z.1.id == p.1.id)
          < (allMatches docs query).findIdx (fun z => z.1.id == q.1.id))
    ∧ ((uniqueMatches docs query).take
        (min maxResults (uniqueMatches docs query).length)).length ≤ maxResults := by
  refine ⟨dedup_nodup_ids _ [], ?_, ?_, ?_, ?_, ?_⟩
  · exact fun p hp => ⟨uniqueMatches_mem_allMatches hp, uniqueMatches_kept_max hp⟩
  · intro z hz
    have hzS : z ∈ sortedMatches docs query :=
      (stableSortDesc_perm (fun p : Document × ℚ => p.2) (allMatches docs query)).mem_iff.mpr hz
    obtain ⟨w, hw, hwi⟩ := id_mem_dedup (sortedMatches docs query) [] z.1.id
      ⟨z, hzS, rfl⟩ rfl
    exact ⟨w, hw, hwi⟩
  · exact List.Pairwise.sublist (dedupByIdGo_sublist _ [])
      (stableSortDesc_pairwise (fun p : Document × ℚ => p.2) (allMatches docs query))
  · exact fun p q hsub htie => uniqueMatches_tie_order docs query hnd p q hsub htie
  · rw [List.length_take]
    omega

theorem ranked_matches_spec_witness :
    (([demoDoc].map (fun d => d.id)).Nodup)
    ∧ (((uniqueMatches [demoDoc] (str "hello")).map (fun p => p.1.id)).Nodup
    ∧ (∀ p ∈ uniqueMatches [demoDoc] (str "hello"), p ∈ allMatches [demoDoc] (str "hello") ∧
        ∀ z ∈ allMatches [demoDoc] (str "hello"), z.1.id = p.1.id → z.2 ≤ p.2)
    ∧ (∀ z ∈ allMatches [demoDoc] (str "hello"),
        ∃ p ∈ uniqueMatches [demoDoc] (str "hello"), p.1.id = z.1.id)
    ∧ List.Pairwise (fun u v : Document × ℚ => v.2 ≤ u.2)
        (uniqueMatches [demoDoc] (str "hello"))
    ∧ (∀ p q : Document × ℚ, [p, q].Sublist (uniqueMatches [demoDoc] (str "hello")) →
        p.2 = q.2 →
        (allMatches [demoDoc] (str "hello")).findIdx (fun z => z.1.id == p.1.id)
          < (allMatches [demoDoc] (str "hello")).findIdx (fun z => z.1.id == q.1.id))
    ∧ ((uniqueMatches [demoDoc] (str "hello")).take
        (min 5 (uniqueMatches [demoDoc] (str "hello")).length)).length ≤ 5) :=
  ⟨by decide, ranked_matches_spec [demoDoc] (str "hello") 5 (by decide)⟩

/-- C1: for every stored document list with pairwise-distinct ids and every
non-empty query, a document whose lowercased content contains the lowercased
query as a substring appears in the final ranked list with score `1.0`, and
no document without an exact-phrase match is ranked before it. -/
theorem exact_phrase_spec (docs : List Document) (query : Text) (d : Document)
    (hnd : (docs.map (fun x => x.id)).Nodup)
    (_hq : query ≠ [])
    (hd : d ∈ docs)
    (hsub : isSubstring (lower query) (lower d.content) = true) :
    (d, (1 : ℚ)) ∈ uniqueMatches docs query ∧
    ∀ e ∈ uniqueMatches docs query,
      isSubstring (lower query) (lower e.1.content) = false →
      ¬ [e, (d, (1 : ℚ))].Sublist (uniqueMatches docs query) := by
  have hdE : (d, (1 : ℚ)) ∈ exactMatches docs query :=
    exactMatches_mem_iff.mpr ⟨hd, hsub, rfl⟩
  have hdA : (d, (1 : ℚ)) ∈ allMatches docs query := by
    unfold allMatches
    exact List.mem_append_left _ hdE
  have hdS : (d, (1 : ℚ)) ∈ sortedMatches docs query :=
    (stableSortDesc_perm (fun p : Document × ℚ => p.2) (allMatches docs query)).mem_iff.mpr hdA
  obtain ⟨w, hw, hwi⟩ := id_mem_dedup (sortedMatches docs query) [] d.id
    ⟨(d, 1), hdS, rfl⟩ rfl
  have hw2le : w.2 ≤ 1 := allMatches_score_le_one (uniqueMatches_mem_allMatches hw)
  have h1le : (1 : ℚ) ≤ w.2 := uniqueMatches_kept_max hw (d, 1) hdA hwi.symm
  have hw2 : w.2 = 1 := le_antisymm hw2le h1le
  have hwdoc : w.1 ∈ docs := allMatches_doc_mem (uniqueMatches_mem_allMatches hw)
  have hw1 : w.1 = d := List.inj_on_of_nodup_map hnd hwdoc hd hwi
  have hwd : w = (d, (1 : ℚ)) := Prod.ext hw1 hw2
  refine ⟨hwd ▸ hw, ?_⟩
  intro e he hesub hpair
  have heA : e ∈ allMatches docs query := uniqueMatches_mem_allMatches he
  have hide : e.1.id ≠ d.id := by
    intro hcon
    have he1 : e.1 = d := List.inj_on_of_nodup_map hnd (allMatches_doc_mem heA) hd hcon
    rw [he1, hsub] at hesub
    cases hesub
  have hpw : List.Pairwise (fun u v : Document × ℚ => v.2 ≤ u.2)
      (uniqueMatches docs query) :=
    List.Pairwise.sublist (dedupByIdGo_sublist _ [])
      (stableSortDesc_pairwise (fun p : Document × ℚ => p.2) (allMatches docs query))
  have hpair2 : List.Pairwise (fun u v : Document × ℚ => v.2 ≤ u.2) [e, (d, (1 : ℚ))] :=
    List.Pairwise.sublist hpair hpw
  have h1e : (1 : ℚ) ≤ e.2 := by
    have := List.pairwise_cons.mp hpair2
    simpa using this.1 (d, 1) (by simp)
  have he2le : e.2 ≤ 1 := allMatches_score_le_one heA
  have htie : e.2 = ((d, (1 : ℚ)) : Document × ℚ).2 := le_antisymm he2le h1e
  have hlt := uniqueMatches_tie_order docs query hnd e (d, 1) hpair htie
  obtain ⟨iE, hiE, hEget⟩ := List.mem_iff_getElem.mp hdE
  have hiA : iE < (allMatches docs query).length := by
    rw [allMatches_length_split]
    omega
  have hAe : (allMatches docs query)[iE] = (d, (1 : ℚ)) := by
    rw [allMatches_getElem_left docs query iE hiE hiA]
    exact hEget
  have hfd : (allMatches docs query).findIdx
      (fun z => z.1.id == ((d, (1 : ℚ)) : Document × ℚ).1.id) ≤ iE := by
    refine findIdx_le_of_getElem _ _ iE hiA ?_
    rw [List.get_eq_getElem, hAe]
    simp
  have hfe_lt : (allMatches docs query).findIdx (fun z => z.1.id == e.1.id)
      < (allMatches docs query).length :=
    List.findIdx_lt_length.mpr ⟨e, heA, by simp⟩
  have hge : (exactMatches docs query).length
      ≤ (allMatches docs query).findIdx (fun z => z.1.id == e.1.id) := by
    by_contra hlt2
    push_neg at hlt2
    have hpred := @List.findIdx_getElem _ (fun z => z.1.id == e.1.id)
      (allMatches docs query) hfe_lt
    have hid2 : ((allMatches docs query)[(allMatches docs query).findIdx
        (fun z => z.1.id == e.1.id)]).1.id = e.1.id := by simpa using hpred
    have hEq : (allMatches docs query)[(allMatches docs query).findIdx
        (fun z => z.1.id == e.1.id)] =
        (exactMatches docs query)[(allMatches docs query).findIdx
          (fun z => z.1.id == e.1.id)] :=
      allMatches_getElem_left docs query _ hlt2 hfe_lt
    have hEmem : (exactMatches docs query)[(allMatches docs query).findIdx
        (fun z => z.1.id == e.1.id)] ∈ exactMatches docs query := List.getElem_mem _
    obtain ⟨hEdoc, hEsub, _⟩ := exactMatches_mem_iff.mp hEmem
    rw [hEq] at hid2
    have hEe : ((exactMatches docs query)[(allMatches docs query).findIdx
        (fun z => z.1.id == e.1.id)]).1 = e.1 :=
      List.inj_on_of_nodup_map hnd hEdoc (allMatches_doc_mem heA) hid2
    rw [hEe, hesub] at hEsub
    cases hEsub
  omega

theorem exact_phrase_spec_witness :
    (([demoDoc].map (fun x => x.id)).Nodup ∧ str "hello" ≠ ([] : Text)
      ∧ demoDoc ∈ [demoDoc]
      ∧ isSubstring (lower (str "hello")) (lower demoDoc.content) = true)
    ∧ ((demoDoc, (1 : ℚ)) ∈ uniqueMatches [demoDoc] (str "hello") ∧
       ∀ e ∈ uniqueMatches [demoDoc] (str "hello"),
         isSubstring (lower (str "hello")) (lower e.1.content) = false →
         ¬ [e, (demoDoc, (1 : ℚ))].Sublist (uniqueMatches [demoDoc] (str "hello"))) :=
  ⟨⟨by decide, by decide, by decide, by decide⟩,
   exact_phrase_spec [demoDoc] (str "hello") demoDoc (by decide) (by decide)
     (by decide) (by decide)⟩

/-- C3: when the lexical matcher finds matches (and at least one result is
requested), the query returns a response whose confidence is
`min(1.0, max match score + 0.3)` when the synthesized answer passes the
acceptance test, and exactly the raw maximum match score among the selected
matches when synthesis fails and the concatenation fallback is used. -/
theorem lexical_confidence_spec (s : DocumentStorage) (query : Text) (maxResults : Nat)
    (llm : Text → Except Text Text)
    (hq : (strip query).isEmpty = false)
    (hum : uniqueMatches (get_all_documents s) query ≠ [])
    (hmr : 1 ≤ maxResults) :
    ∃ r : QueryResponse,
      queryDocuments s query maxResults llm = Except.ok r ∧
      ((!(synthesize_answer s llm query (llmChunksOf (relevantContexts
            ((uniqueMatches (get_all_documents s) query).take
              (min maxResults (uniqueMatches (get_all_documents s) query).length))))).isEmpty
        && 10 < (strip (synthesize_answer s llm query (llmChunksOf (relevantContexts
            ((uniqueMatches (get_all_documents s) query).take
              (min maxResults (uniqueMatches (get_all_documents s) query).length)))))).length
        && !(isSubstring (str "LLM synthesis unavailable")
            (synthesize_answer s llm query (llmChunksOf (relevantContexts
              ((uniqueMatches (get_all_documents s) query).take
                (min maxResults
                  (uniqueMatches (get_all_documents s) query).length))))))) = true →
        r.confidence = min 1 (maxScore ((uniqueMatches (get_all_documents s) query).take
          (min maxResults (uniqueMatches (get_all_documents s) query).length)) + 3 / 10)) ∧
      ((!(synthesize_answer s llm query (llmChunksOf (relevantContexts
            ((uniqueMatches (get_all_documents s) query).take
              (min maxResults (uniqueMatches (get_all_documents s) query).length))))).isEmpty
        && 10 < (strip (synthesize_answer s llm query (llmChunksOf (relevantContexts
            ((uniqueMatches (get_all_documents s) query).take
              (min maxResults (uniqueMatches (get_all_documents s) query).length)))))).length
        && !(isSubstring (str "LLM synthesis unavailable")
            (synthesize_answer s llm query (llmChunksOf (relevantContexts
              ((uniqueMatches (get_all_documents s) query).take
                (min maxResults
                  (uniqueMatches (get_all_documents s) query).length))))))) = false →
        r.confidence = maxScore ((uniqueMatches (get_all_documents s) query).take
          (min maxResults (uniqueMatches (get_all_documents s) query).length))) := by
  have hdocs : (get_all_documents s).isEmpty = false := by
    obtain ⟨p, hp⟩ := List.exists_mem_of_ne_nil _ hum
    have hpd : p.1 ∈ get_all_documents s :=
      allMatches_doc_mem (uniqueMatches_mem_allMatches hp)
    cases hgd : get_all_documents s with
    | nil => rw [hgd] at hpd; simp at hpd
    | cons a l => simp
  have humE : (uniqueMatches (get_all_documents s) query).isEmpty = false :=
    List.isEmpty_eq_false.mpr hum
  have hsel : (uniqueMatches (get_all_documents s) query).take
      (min maxResults (uniqueMatches (get_all_documents s) query).length) ≠ [] := by
    have hlen : 1 ≤ (uniqueMatches (get_all_documents s) query).length :=
      List.length_pos.mpr hum
    intro hcon
    have hl := congrArg List.length hcon
    rw [List.length_take] at hl
    simp only [List.length_nil] at hl
    omega
  have hctx : (relevantContexts ((uniqueMatches (get_all_documents s) query).take
      (min maxResults (uniqueMatches (get_all_documents s) query).length))).isEmpty
      = false :=
    List.isEmpty_eq_false.mpr (relevantContexts_ne_nil hsel)
  simp only [queryDocuments, hq, hdocs, humE, Bool.and_false, Bool.false_eq_true,
    if_false]
  simp only [matchesResponse, hctx, Bool.not_false, if_true]
  by_cases hc : (!(synthesize_answer s llm query (llmChunksOf (relevantContexts
            ((uniqueMatches (get_all_documents s) query).take
              (min maxResults (uniqueMatches (get_all_documents s) query).length))))).isEmpty
        && 10 < (strip (synthesize_answer s llm query (llmChunksOf (relevantContexts
            ((uniqueMatches (get_all_documents s) query).take
              (min maxResults (uniqueMatches (get_all_documents s) query).length)))))).length
        && !(isSubstring (str "LLM synthesis unavailable")
            (synthesize_answer s llm query (llmChunksOf (relevantContexts
              ((uniqueMatches (get_all_documents s) query).take
                (min maxResults
                  (uniqueMatches (get_all_documents s) query).length))))))) = true
  · rw [if_pos hc]
    refine ⟨_, rfl, ?_, ?_⟩
    · intro _
      show min (min (maxScore ((uniqueMatches (get_all_documents s) query).take
          (min maxResults (uniqueMatches (get_all_documents s) query).length)) + 3 / 10) 1) 1
        = min 1 (maxScore ((uniqueMatches (get_all_documents s) query).take
          (min maxResults (uniqueMatches (get_all_documents s) query).length)) + 3 / 10)
      rw [min_assoc, min_self, min_comm]
    · intro hcf
      rw [hc] at hcf
      cases hcf
  · rw [if_neg hc]
    refine ⟨_, rfl, ?_, ?_⟩
    · intro hct
      exact absurd hct hc
    · intro _
      show min (maxScore ((uniqueMatches (get_all_documents s) query).take
          (min maxResults (uniqueMatches (get_all_documents s) query).length))) 1
        = maxScore ((uniqueMatches (get_all_documents s) query).take
          (min maxResults (uniqueMatches (get_all_documents s) query).length))
      exact min_eq_left (maxScore_le_one _)

def wLlm : Text → Except Text Text := fun _ => Except.error (str "provider down")

theorem lexical_confidence_spec_witness :
    ((strip (str "hello")).isEmpty = false
      ∧ uniqueMatches (get_all_documents demoStorage) (str "hello") ≠ []
      ∧ 1 ≤ 5)
    ∧ (
    ∃ r : QueryResponse,
      queryDocuments demoStorage (str "hello") 5 wLlm = Except.ok r ∧
      ((!(synthesize_answer demoStorage wLlm (str "hello") (llmChunksOf (relevantContexts
            ((uniqueMatches (get_all_documents demoStorage) (str "hello")).take
              (min 5 (uniqueMatches (get_all_documents demoStorage) (str "hello")).length))))).isEmpty
        && 10 < (strip (synthesize_answer demoStorage wLlm (str "hello") (llmChunksOf (relevantContexts
            ((uniqueMatches (get_all_documents demoStorage) (str "hello")).take
              (min 5 (uniqueMatches (get_all_documents demoStorage) (str "hello")).length)))))).length
        && !(isSubstring (str "LLM synthesis unavailable")
            (synthesize_answer demoStorage wLlm (str "hello") (llmChunksOf (relevantContexts
              ((uniqueMatches (get_all_documents demoStorage) (str "hello")).take
                (min 5
                  (uniqueMatches (get_all_documents demoStorage) (str "hello")).length))))))) = true →
        r.confidence = min 1 (maxScore ((uniqueMatches (get_all_documents demoStorage) (str "hello")).take
          (min 5 (uniqueMatches (get_all_documents demoStorage) (str "hello")).length)) + 3 / 10)) ∧
      ((!(synthesize_answer demoStorage wLlm (str "hello") (llmChunksOf (relevantContexts
            ((uniqueMatches (get_all_documents demoStorage) (str "hello")).take
              (min 5 (uniqueMatches (get_all_documents demoStorage) (str "hello")).length))))).isEmpty
        && 10 < (strip (synthesize_answer demoStorage wLlm (str "hello") (llmChunksOf (relevantContexts
            ((uniqueMatches (get_all_documents demoStorage) (str "hello")).take
              (min 5 (uniqueMatches (get_all_documents demoStorage) (str "hello")).length)))))).length
        && !(isSubstring (str "LLM synthesis unavailable")
            (synthesize_answer demoStorage wLlm (str "hello") (llmChunksOf (relevantContexts
              ((uniqueMatches (get_all_documents demoStorage) (str "hello")).take
                (min 5
                  (uniqueMatches (get_all_documents demoStorage) (str "hello")).length))))))) = false →
        r.confidence = maxScore ((uniqueMatches (get_all_documents demoStorage) (str "hello")).take
          (min 5 (uniqueMatches (get_all_documents demoStorage) (str "hello")).length)))) :=
  ⟨⟨by decide, by with_unfolding_all decide, by decide⟩,
   lexical_confidence_spec demoStorage (str "hello") 5 wLlm (by decide)
     (by with_unfolding_all decide) (by decide)⟩

/-- C4: with an empty candidate-chunk list the answer synthesizer returns the
fixed "no relevant information" answer for every completion provider (so the
provider is never consulted), and a non-empty query issued while no documents
are stored yields the no-documents answer with confidence `0.0` and an empty
sources list. -/
theorem no_chunks_no_docs_spec (s : DocumentStorage) (query : Text) (maxResults : Nat)
    (llm : Text → Except Text Text)
    (hq : (strip query).isEmpty = false)
    (hdocs : (get_all_documents s).isEmpty = true) :
    (∀ llm2 : Text → Except Text Text,
      synthesize_answer s llm2 query [] = noRelevantMsg)
    ∧ queryDocuments s query maxResults llm
        = Except.ok { answer := noDocsMsg, sources := [], confidence := 0 } := by
  refine ⟨fun llm2 => rfl, ?_⟩
  simp only [queryDocuments, hq, hdocs, Bool.false_eq_true, if_false, if_true]

def emptyStorage : DocumentStorage := { documents := [], chunks := [] }

theorem no_chunks_no_docs_spec_witness :
    ((strip (str "anything")).isEmpty = false
      ∧ (get_all_documents emptyStorage).isEmpty = true)
    ∧ ((∀ llm2 : Text → Except Text Text,
        synthesize_answer emptyStorage llm2 (str "anything") [] = noRelevantMsg)
    ∧ queryDocuments emptyStorage (str "anything") 5 wLlm
        = Except.ok { answer := noDocsMsg, sources := [], confidence := 0 }) :=
  ⟨⟨by decide, by decide⟩,
   no_chunks_no_docs_spec emptyStorage (str "anything") 5 wLlm (by decide) (by decide)⟩
